import Mathlib

/-!
Shallow embedding of the pairing engine of `src/pairingAlgorithm.js`
(random-coffee-shuffler).  Spreadsheet cells are modelled by `Cell`
(JavaScript strings, booleans, small integers and null/undefined collapse
to these four constructors; none of the claims distinguishes null from
undefined).  JavaScript numbers are modelled by `ℚ`: every number the
algorithm manipulates is a rational with tiny numerator/denominator
(weights 0.6/0.4, integer counts, the 10000 penalty), and all comparisons
performed by the code are between rationals whose exact values are
separated by far more than double-precision rounding error, so the
rational semantics and the IEEE-754 semantics agree on every branch the
code takes.
-/

inductive Cell where
  | str (s : String)
  | bool (b : Bool)
  | num (n : Int)
  | null
deriving DecidableEq, Repr

/-- JavaScript truthiness restricted to the cell values: `""`, `false`,
`0` and `null`/`undefined` are falsy. -/
def Cell.truthy : Cell → Bool
  | Cell.str s => !(s == "")
  | Cell.bool b => b
  | Cell.num n => !(n == 0)
  | Cell.null => false

/-- JavaScript `String(x)` for the cell values (only ever applied to
truthy cells by the code under study). -/
def cellToString : Cell → String
  | Cell.str s => s
  | Cell.bool b => if b then "true" else "false"
  | Cell.num n => toString n
  | Cell.null => "null"

/-- The strict-equality active test of `buildConnectionGraph`
(line 84): `isActive === true || isActive === 'true' || isActive === 1
|| isActive === 'TRUE'`. -/
def isActiveCell (c : Cell) : Bool :=
  c == Cell.bool true || c == Cell.str "true" || c == Cell.num 1 || c == Cell.str "TRUE"

/-- A spreadsheet row; `none` models a `null`/missing row. -/
def Row := Option (List Cell)

def Table := List Row

/-- JavaScript `row[i]`: out-of-range access yields `undefined`
(collapsed to `Cell.null`). -/
def getCell (r : List Cell) (i : Nat) : Cell := r.getD i Cell.null

/-- A date parsed by `parseDate`: year, zero-based month, day.  The
month is an `Int` because the code subtracts one from the textual
month, which may be `0`. -/
structure ParsedDate where
  year : Nat
  month0 : Int
  day : Nat
deriving DecidableEq, Repr

def isDigitString (s : String) : Bool :=
  !(s == "") && s.all Char.isDigit

def natOfString (s : String) : Nat :=
  s.foldl (fun acc c => acc * 10 + (c.toNat - 48)) 0

/-- `parseDate` of the source: a string matching
`^(\d{4})-(\d{1,2})-(\d{1,2})$` yields a date (month decremented),
anything else yields null. -/
def parseDate (c : Cell) : Option ParsedDate :=
  match c with
  | Cell.str s =>
    match s.splitOn "-" with
    | [y, m, d] =>
      if y.length == 4 && isDigitString y
          && (m.length == 1 || m.length == 2) && isDigitString m
          && (d.length == 1 || d.length == 2) && isDigitString d then
        some ⟨natOfString y, (natOfString m : Int) - 1, natOfString d⟩
      else none
    | _ => none
  | _ => none

structure NodeAttrs where
  canBeTwice : Bool
  meetingCount : Nat
deriving DecidableEq, Repr

structure EdgeAttrs where
  meetings : List (Option ParsedDate)
  count : Nat
deriving DecidableEq, Repr

structure EdgeRec where
  src : Cell
  dst : Cell
  attrs : EdgeAttrs
deriving DecidableEq, Repr

/-- The graphology undirected graph, as used by the code: node insertion
order is observable through `graph.nodes()`; at most one edge per
unordered pair is ever created because every `addEdge` is guarded by
`hasEdge`. -/
structure CGraph where
  nodes : List (Cell × NodeAttrs)
  edges : List EdgeRec
deriving DecidableEq, Repr

def hasNode (g : CGraph) (c : Cell) : Bool :=
  g.nodes.any (fun n => n.1 == c)

def getNodeAttrs (g : CGraph) (c : Cell) : NodeAttrs :=
  match g.nodes.find? (fun n => n.1 == c) with
  | some n => n.2
  | none => ⟨false, 0⟩

def edgeMatches (a b : Cell) (e : EdgeRec) : Bool :=
  (e.src == a && e.dst == b) || (e.src == b && e.dst == a)

def hasEdge (g : CGraph) (a b : Cell) : Bool :=
  g.edges.any (edgeMatches a b)

def getEdgeCount (g : CGraph) (a b : Cell) : Nat :=
  match g.edges.find? (edgeMatches a b) with
  | some e => e.attrs.count
  | none => 0

/-- graphology `neighbors`, in edge insertion order. -/
def neighbors (g : CGraph) (c : Cell) : List Cell :=
  g.edges.filterMap (fun e =>
    if e.src == c then some e.dst
    else if e.dst == c then some e.src
    else none)

/-- graphology `degree` (a self-loop counts twice). -/
def degree (g : CGraph) (c : Cell) : Nat :=
  g.edges.foldl (fun acc e =>
    acc + (if e.src == c && e.dst == c then 2
           else if e.src == c || e.dst == c then 1 else 0)) 0

def nodeKeys (g : CGraph) : List Cell := g.nodes.map (fun n => n.1)

/-- One iteration of the roster loop of `buildConnectionGraph`
(lines 76-94).  graphology's `addNode` rejects a key that is already
present (roster identities are unique keys per the data model, and all
theorems about the builder assume that uniqueness), so re-adding is a
no-op here. -/
def addRosterRow (nodes : List (Cell × NodeAttrs)) (row : Row) : List (Cell × NodeAttrs) :=
  match row with
  | none => nodes
  | some r =>
    let email := getCell r 0
    if !email.truthy then nodes
    else
      let isActive := getCell r 1
      let twiceFlag := getCell r 2
      if isActiveCell isActive then
        let canBeTwice := twiceFlag.truthy && ((cellToString twiceFlag).toLower.trim == "twice")
        if nodes.any (fun n => n.1 == email) then nodes
        else nodes ++ [(email, ⟨canBeTwice, 0⟩)]
      else nodes

def incMeetingCount (g : CGraph) (c : Cell) : CGraph :=
  { g with nodes := g.nodes.map (fun n => if n.1 == c then (n.1, ⟨n.2.canBeTwice, n.2.meetingCount + 1⟩) else n) }

/-- graphology `replaceEdgeAttributes` after appending one meeting:
exactly the first (and only) edge of the unordered pair is updated. -/
def bumpEdge (edges : List EdgeRec) (a b : Cell) (md : Option ParsedDate) : List EdgeRec :=
  match edges with
  | [] => []
  | e :: rest =>
    if edgeMatches a b e then
      { e with attrs := ⟨e.attrs.meetings ++ [md], e.attrs.count + 1⟩ } :: rest
    else e :: bumpEdge rest a b md

/-- One iteration of the history loop of `buildConnectionGraph`
(lines 98-127). -/
def addHistoryRow (g : CGraph) (row : Row) : CGraph :=
  match row with
  | none => g
  | some r =>
    let email1 := getCell r 0
    let email2 := getCell r 1
    if !email1.truthy || !email2.truthy then g
    else if !(hasNode g email1) || !(hasNode g email2) then g
    else
      let md := parseDate (getCell r 2)
      let g1 :=
        if hasEdge g email1 email2 then { g with edges := bumpEdge g.edges email1 email2 md }
        else { g with edges := g.edges ++ [⟨email1, email2, ⟨[md], 1⟩⟩] }
      incMeetingCount (incMeetingCount g1 email1) email2

/-- `buildConnectionGraph(table1Data, table2Data)`: both ingestion loops
start at row index 1 (row 0 is treated as a header). -/
def buildConnectionGraph (t1 t2 : Table) : CGraph :=
  let nodes := (t1.drop 1).foldl addRosterRow []
  (t2.drop 1).foldl addHistoryRow ⟨nodes, []⟩

/-- One BFS from `start`, fuelled by the node count (each dequeue
consumes fuel; at most `1 + order` dequeues ever happen because a node
is enqueued only at the moment it is first visited). -/
def bfsCollect (g : CGraph) : Nat → List Cell → List Cell → List Cell → (List Cell × List Cell)
  | 0, _, visited, comp => (comp, visited)
  | _ + 1, [], visited, comp => (comp, visited)
  | fuel + 1, current :: queue, visited, comp =>
    let step := (neighbors g current).foldl
      (fun (acc : List Cell × List Cell) nb =>
        if acc.2.contains nb then acc else (acc.1 ++ [nb], acc.2 ++ [nb]))
      (queue, visited)
    bfsCollect g fuel step.1 step.2 (comp ++ [current])

/-- `detectCommunities`: connected components by BFS over nodes in
insertion order; the trailing loop of the source that would give
identifiers to still-unvisited nodes is kept even though the first pass
already visits every node. -/
def detectCommunities (g : CGraph) : List (Cell × Nat) :=
  let keys := nodeKeys g
  let pass1 := keys.foldl
    (fun (st : List Cell × List (Cell × Nat) × Nat) node =>
      let (visited, comms, cid) := st
      if visited.contains node then st
      else
        let (comp, visited2) := bfsCollect g (keys.length + 1) [node] (visited ++ [node]) []
        (visited2, comms ++ comp.map (fun m => (m, cid)), cid + 1))
    ([], [], 0)
  let (_, comms, cid0) := pass1
  (keys.foldl
    (fun (st : List (Cell × Nat) × Nat) node =>
      if st.1.any (fun p => p.1 == node) then st
      else (st.1 ++ [(node, st.2)], st.2 + 1))
    (comms, cid0)).1

def communityOf (comms : List (Cell × Nat)) (c : Cell) : Option Nat :=
  match comms.find? (fun p => p.1 == c) with
  | some p => some p.2
  | none => none

structure AlgorithmConfig where
  WEIGHTS_DIVERSITY : ℚ
  WEIGHTS_NETWORK_OPTIMIZATION : ℚ
  CROSS_COMMUNITY_BONUS : ℚ
  BRIDGE_BUILDING_BONUS : ℚ
  HARD_CONSTRAINT_PENALTY : ℚ

def ALGORITHM_CONFIG : AlgorithmConfig :=
  { WEIGHTS_DIVERSITY := 0.6
    WEIGHTS_NETWORK_OPTIMIZATION := 0.4
    CROSS_COMMUNITY_BONUS := 50
    BRIDGE_BUILDING_BONUS := 30
    HARD_CONSTRAINT_PENALTY := 10000 }

/-- `calculateDiversityScore`: base 10, plus `10 - |common neighbors|`,
floored at 0; absent nodes yield the base score. -/
def calculateDiversityScore (email1 email2 : Cell) (g : CGraph) : ℚ :=
  let diversityScore : ℚ := 10
  if !(hasNode g email1) || !(hasNode g email2) then diversityScore
  else
    let neighbors1 := (neighbors g email1).dedup
    let neighbors2 := (neighbors g email2).dedup
    let commonNeighbors := neighbors1.countP (fun n => neighbors2.contains n)
    max 0 (diversityScore + (10 - (commonNeighbors : ℚ)))

/-- `calculateNetworkScore`: cross-community bonus plus bridge-building
bonus, both additive. -/
def calculateNetworkScore (email1 email2 : Cell) (g : CGraph)
    (communities : List (Cell × Nat)) : ℚ :=
  let s1 : ℚ :=
    match communityOf communities email1, communityOf communities email2 with
    | some c1, some c2 => if c1 ≠ c2 then ALGORITHM_CONFIG.CROSS_COMMUNITY_BONUS else 0
    | _, _ => 0
  let s2 : ℚ :=
    if hasNode g email1 && hasNode g email2 then
      if ((degree g email1 : Int) - (degree g email2 : Int)).natAbs > 2 then
        ALGORITHM_CONFIG.BRIDGE_BUILDING_BONUS
      else 0
    else 0
  s1 + s2

/-- `buildCostMatrix`.  The `isNaN(totalScore)` guard of the source and
the `|| 0` fallbacks are identity operations here: the two scores are
genuine rationals built from counts, so no not-a-number value can
arise (the guard replaces an impossible NaN by 0). -/
def buildCostMatrix (employees : List Cell) (g : CGraph)
    (communities : List (Cell × Nat)) : List (List ℚ) :=
  let n := employees.length
  (List.range n).map (fun i =>
    (List.range n).map (fun j =>
      let email1 := employees.getD i Cell.null
      let email2 := employees.getD j Cell.null
      if i == j || email1 == email2 then ALGORITHM_CONFIG.HARD_CONSTRAINT_PENALTY
      else if hasEdge g email1 email2 then ALGORITHM_CONFIG.HARD_CONSTRAINT_PENALTY
      else
        -(ALGORITHM_CONFIG.WEIGHTS_DIVERSITY * calculateDiversityScore email1 email2 g
          + ALGORITHM_CONFIG.WEIGHTS_NETWORK_OPTIMIZATION * calculateNetworkScore email1 email2 g communities)))

/-- A candidate pair of the solver: two indices into the participant
list plus the cost read from the matrix (the source also caches the two
email strings; they are recovered from the indices on output). -/
structure IPair where
  i : Nat
  j : Nat
  cost : ℚ
deriving DecidableEq, Repr

/-- The cost-matrix rows as passed to `hungarianMatching`: the whole
matrix may be `null`, and an individual row may be `undefined`
(`none`). -/
def MatrixArg := Option (List (Option (List ℚ)))

/-- `costMatrix[i][j]` on the validated matrix. -/
def mval (rows : List (Option (List ℚ))) (i j : Nat) : ℚ :=
  ((rows.getD i none).getD []).getD j 0

/-- All unordered index pairs `i < j`, skipping pairs of identical
identities (lines 325-334). -/
def possiblePairs (employees : List Cell) (rows : List (Option (List ℚ))) : List IPair :=
  let n := employees.length
  (List.range n).flatMap (fun i =>
    ((List.range n).drop (i + 1)).filterMap (fun j =>
      if employees.getD i Cell.null == employees.getD j Cell.null then none
      else some ⟨i, j, mval rows i j⟩))

/-- Stable insertion of a pair into a cost-sorted list (the element
goes after every pair of smaller-or-equal cost). -/
def insSorted (x : IPair) : List IPair → List IPair
  | [] => [x]
  | y :: ys => if y.cost ≤ x.cost then y :: insSorted x ys else x :: y :: ys

/-- `possiblePairs.sort((a, b) => a.cost - b.cost)`: JavaScript's sort
is stable, and the stable ascending reordering of a list is unique, so
any stable sorting algorithm gives the array the source works with. -/
def sortPairs (l : List IPair) : List IPair :=
  l.foldl (fun acc x => insSorted x acc) []

def costLtBest (c : ℚ) : Option (List IPair × ℚ) → Bool
  | none => true
  | some (_, bc) => c < bc

def bestLeCost (best : Option (List IPair × ℚ)) (c : ℚ) : Bool :=
  match best with
  | none => false
  | some (_, bc) => bc ≤ c

/-- The `backtrack` loop of `hungarianMatching` (lines 343-380).  One
call processes the candidate pairs from the current index on; the
body of the recursive `backtrack` entry (completion test, cost prune,
pool-size prune) is inlined at the recursion site, exactly where the
source performs it. -/
def btLoop (target : Nat) : List IPair → List IPair → List Nat → ℚ →
    Option (List IPair × ℚ) → Option (List IPair × ℚ)
  | [], _, _, _, best => best
  | p :: rest, cur, used, cost, best =>
    let best1 :=
      if used.contains p.i || used.contains p.j then best
      else
        let cur2 := cur ++ [p]
        let used2 := p.i :: p.j :: used
        let cost2 := cost + p.cost
        if cur2.length == target then
          if costLtBest cost2 best then some (cur2, cost2) else best
        else if bestLeCost best cost2 then best
        else if rest.length < target - cur2.length then best
        else btLoop target rest cur2 used2 cost2 best
    btLoop target rest cur used cost best1

/-- The initial `backtrack(0, [], new Set(), 0)` call: its entry checks
happen once before the loop over all pairs starts. -/
def backtrackTop (target : Nat) (ps : List IPair) : Option (List IPair × ℚ) :=
  if target == 0 then some ([], 0)
  else if ps.length < target then none
  else btLoop target ps [] [] 0 none

/-- Whether every remaining unordered pair of still-unmatched indices
carries at least the hard-constraint penalty (lines 431-438). -/
def allPenaltiesAmong (rows : List (Option (List ℚ))) : List Nat → Bool
  | [] => true
  | x :: xs =>
    xs.all (fun y => !(mval rows x y < ALGORITHM_CONFIG.HARD_CONSTRAINT_PENALTY)) &&
      allPenaltiesAmong rows xs

def scoreLtBest (s : ℚ) : Option ℚ → Bool
  | none => true
  | some bs => s < bs

/-- One selection sweep of `greedyWithLookahead` (lines 408-449):
scan the sorted pool, surcharge a candidate whose commitment would
leave the remaining participants with only penalized options, keep the
first strictly-better candidate. -/
def selectGreedyPair (n : Nat) (rows : List (Option (List ℚ)))
    (sorted : List IPair) (used : List Nat) : Option IPair :=
  (sorted.foldl
    (fun (acc : Option IPair × Option ℚ) p =>
      if used.contains p.i || used.contains p.j then acc
      else
        let testUsed := p.j :: p.i :: used
        let remaining := (List.range n).filter (fun k => !(testUsed.contains k))
        let allPenalties := allPenaltiesAmong rows remaining
        let score :=
          if 2 ≤ remaining.length && allPenalties then
            p.cost + ALGORITHM_CONFIG.HARD_CONSTRAINT_PENALTY * (0.5 : ℚ)
          else p.cost
        if scoreLtBest score acc.2 then (some p, some score) else acc)
    (none, none)).1

/-- The `while (pairs.length < targetPairs)` loop of
`greedyWithLookahead`; each iteration commits one pair, so the loop
runs at most `targetPairs` times (the fuel). -/
def greedyLoop (n : Nat) (rows : List (Option (List ℚ))) (sorted : List IPair) :
    Nat → List IPair → List Nat → List IPair
  | 0, pairs, _ => pairs
  | fuel + 1, pairs, used =>
    match selectGreedyPair n rows sorted used with
    | none => pairs
    | some p => greedyLoop n rows sorted fuel (pairs ++ [p]) (p.j :: p.i :: used)

/-- `greedyWithLookahead` (lines 400-459); the source pushes the two
cached emails as it commits each pair, which equals mapping the
committed index pairs through the participant list at the end. -/
def greedyWithLookahead (employees : List Cell) (rows : List (Option (List ℚ)))
    (sortedPairs : List IPair) (targetPairs : Nat) : List (Cell × Cell) :=
  (greedyLoop employees.length rows sortedPairs targetPairs [] []).map
    (fun p => (employees.getD p.i Cell.null, employees.getD p.j Cell.null))

/-- `hungarianMatching(employees, costMatrix)` (lines 305-394). -/
def hungarianMatching (employees : List Cell) (costMatrix : MatrixArg) : List (Cell × Cell) :=
  match costMatrix with
  | none => []
  | some rows =>
    if rows.length == 0 then []
    else if rows.any (fun r => (r.getD []).isEmpty) then []
    else
      let n := employees.length
      let targetPairs := n / 2
      let sortedPairs := sortPairs (possiblePairs employees rows)
      if n > 12 then greedyWithLookahead employees rows sortedPairs targetPairs
      else
        match backtrackTop targetPairs sortedPairs with
        | none => []
        | some (m, _) =>
          m.map (fun p => (employees.getD p.i Cell.null, employees.getD p.j Cell.null))

/-- The employee list actually solved over: the node keys, with one
randomly chosen "twice" user appended when the active count is odd
(lines 470-502).  The pseudo-random selection is the only
non-determinism of the engine and is passed in as `pick`; the source's
`Math.floor(Math.random() * len)` always lands in `[0, len)`, which
`pick len % len` models for every `pick`. -/
def twiceUsersOf (g : CGraph) : List Cell :=
  (nodeKeys g).filter (fun e => (getNodeAttrs g e).canBeTwice == true)

def expandedEmployees (pick : Nat → Nat) (g : CGraph) : List Cell :=
  let employees := nodeKeys g
  if employees.length % 2 ≠ 0 then
    let twiceUsers := twiceUsersOf g
    if twiceUsers.length > 0 then
      employees ++ [twiceUsers.getD (pick twiceUsers.length % twiceUsers.length) Cell.null]
    else employees
  else employees

/-- `generateOptimalPairs(table1Data, table2Data)` (lines 464-573); the
diagnostics logged by the orchestrator do not affect the returned
value and are not modelled. -/
def generateOptimalPairs (pick : Nat → Nat) (t1 t2 : Table) : List (Cell × Cell) :=
  let graph := buildConnectionGraph t1 t2
  if (nodeKeys graph).length < 2 then []
  else
    let employees := expandedEmployees pick graph
    let communities := detectCommunities graph
    let costMatrix := buildCostMatrix employees graph communities
    hungarianMatching employees (some (costMatrix.map (fun r => some r)))

/-! ### Shared facts about the graph builder -/

/-- The active email recorded by a roster data row, if any. -/
def activeEmailOfRow (row : Row) : Option Cell :=
  match row with
  | none => none
  | some r =>
    if (getCell r 0).truthy && isActiveCell (getCell r 1) then some (getCell r 0) else none

/-- The identities of all active data rows of the roster table (row 0
is the header). -/
def activeEmailsOf (t1 : Table) : List Cell :=
  (t1.drop 1).filterMap activeEmailOfRow

theorem hasNode_iff_mem_keys (g : CGraph) (e : Cell) :
    hasNode g e = true ↔ e ∈ nodeKeys g := by
  constructor
  · intro h
    rcases List.any_eq_true.mp h with ⟨x, hx, hbx⟩
    exact List.mem_map.mpr ⟨x, hx, beq_iff_eq.mp hbx⟩
  · intro h
    rcases List.mem_map.mp h with ⟨x, hx, rfl⟩
    exact List.any_eq_true.mpr ⟨x, hx, beq_iff_eq.mpr rfl⟩

theorem keys_addRosterRow (nodes : List (Cell × NodeAttrs)) (row : Row) (e : Cell) :
    e ∈ (addRosterRow nodes row).map Prod.fst ↔
      e ∈ nodes.map Prod.fst ∨ activeEmailOfRow row = some e := by
  match row with
  | none => simp [addRosterRow, activeEmailOfRow]
  | some r =>
    simp only [addRosterRow, activeEmailOfRow]
    cases ht : (getCell r 0).truthy with
    | false => simp [ht]
    | true =>
      cases ha : isActiveCell (getCell r 1) with
      | false => simp [ht, ha]
      | true =>
        cases hdup : nodes.any (fun n => n.1 == getCell r 0) with
        | true =>
          have hm : getCell r 0 ∈ nodes.map Prod.fst := by
            rcases List.any_eq_true.mp hdup with ⟨x, hx, hbx⟩
            exact List.mem_map.mpr ⟨x, hx, beq_iff_eq.mp hbx⟩
          simp only [ht, ha, hdup, Bool.not_true, Bool.and_self, if_true, if_false,
            Bool.false_eq_true, Option.some.injEq, ite_true]
          constructor
          · exact fun h => Or.inl h
          · rintro (h | rfl)
            · exact h
            · exact hm
        | false =>
          simp only [ht, ha, hdup, Bool.not_true, Bool.and_self, if_true, if_false,
            Bool.false_eq_true, Option.some.injEq, ite_true, ite_false,
            List.map_append, List.mem_append, List.map_cons, List.map_nil,
            List.mem_singleton]
          constructor
          · rintro (h | rfl)
            · exact Or.inl h
            · exact Or.inr rfl
          · rintro (h | rfl)
            · exact Or.inl h
            · exact Or.inr rfl

theorem keys_rosterFold (rows : List Row) (init : List (Cell × NodeAttrs)) (e : Cell) :
    e ∈ (rows.foldl addRosterRow init).map Prod.fst ↔
      e ∈ init.map Prod.fst ∨ e ∈ rows.filterMap activeEmailOfRow := by
  induction rows generalizing init with
  | nil => simp
  | cons row rest ih =>
    simp only [List.foldl_cons, ih, keys_addRosterRow]
    rcases hrow : activeEmailOfRow row with _ | c
    · simp [List.filterMap_cons, hrow]
    · simp only [List.filterMap_cons, hrow, List.mem_cons, Option.some.injEq]
      constructor
      · rintro ((h | rfl) | h)
        · exact Or.inl h
        · exact Or.inr (Or.inl rfl)
        · exact Or.inr (Or.inr h)
      · rintro (h | rfl | h)
        · exact Or.inl (Or.inl h)
        · exact Or.inl (Or.inr rfl)
        · exact Or.inr h

theorem keys_addHistoryRow (g : CGraph) (row : Row) :
    (addHistoryRow g row).nodes.map Prod.fst = g.nodes.map Prod.fst := by
  match row with
  | none => rfl
  | some r =>
    simp only [addHistoryRow]
    cases h1 : (getCell r 0).truthy with
    | false => simp [h1]
    | true =>
    cases h2 : (getCell r 1).truthy with
    | false => simp [h1, h2]
    | true =>
    cases h3 : hasNode g (getCell r 0) with
    | false => simp [h1, h2, h3]
    | true =>
    cases h4 : hasNode g (getCell r 1) with
    | false => simp [h1, h2, h3, h4]
    | true =>
      cases h5 : hasEdge g (getCell r 0) (getCell r 1) <;>
        simp [h1, h2, h3, h4, h5, incMeetingCount, List.map_map, Function.comp_def,
          apply_ite (Prod.fst)]

theorem keys_historyFold (rows : List Row) (g : CGraph) :
    (rows.foldl addHistoryRow g).nodes.map Prod.fst = g.nodes.map Prod.fst := by
  induction rows generalizing g with
  | nil => rfl
  | cons row rest ih => rw [List.foldl_cons, ih, keys_addHistoryRow]

theorem nodeKeys_build (t1 t2 : Table) (e : Cell) :
    e ∈ nodeKeys (buildConnectionGraph t1 t2) ↔ e ∈ activeEmailsOf t1 := by
  show e ∈ (buildConnectionGraph t1 t2).nodes.map Prod.fst ↔ _
  rw [buildConnectionGraph, keys_historyFold]
  simpa [activeEmailsOf] using keys_rosterFold (t1.drop 1) [] e

/-! ### Claim C10: row 0 of both tables is unconditionally skipped -/

/-- C10: `buildConnectionGraph` never reads row 0 of either table: the
graph is invariant under replacing either first row, and a well-formed
active participant record (resp. meeting record) sitting in row 0 is
ignored — here `alice` is a perfectly well-formed active row yet gets
no node, and a well-formed `alice`/`bob` meeting in row 0 of the
history yields no edge (while the same record in row 1 would). -/
theorem c10_header_rows_ignored :
    (∀ (r0 r0' h0 h0' : Row) (t1rest t2rest : List Row),
        buildConnectionGraph (r0 :: t1rest) (h0 :: t2rest)
          = buildConnectionGraph (r0' :: t1rest) (h0' :: t2rest))
    ∧ hasNode (buildConnectionGraph [some [Cell.str "alice", Cell.bool true]] [])
        (Cell.str "alice") = false
    ∧ hasEdge
        (buildConnectionGraph
          [some [Cell.str "e", Cell.str "a"], some [Cell.str "alice", Cell.bool true],
            some [Cell.str "bob", Cell.bool true]]
          [some [Cell.str "alice", Cell.str "bob", Cell.str "2024-01-15", Cell.str "r"]])
        (Cell.str "alice") (Cell.str "bob") = false
    ∧ hasEdge
        (buildConnectionGraph
          [some [Cell.str "e", Cell.str "a"], some [Cell.str "alice", Cell.bool true],
            some [Cell.str "bob", Cell.bool true]]
          [some [], some [Cell.str "alice", Cell.str "bob", Cell.str "2024-01-15", Cell.str "r"]])
        (Cell.str "alice") (Cell.str "bob") = true :=
  ⟨fun _ _ _ _ _ _ => rfl, by with_unfolding_all rfl, by with_unfolding_all rfl,
    by with_unfolding_all rfl⟩

/-! ### Claim C9: the active-flag encodings -/

/-- C9: a node is created for an identity iff some roster data row
carries it with an active field that is exactly `true`, `"true"`, `1`
or `"TRUE"`; every other value (including `"True"`, other strings and
`0`) is inactive and creates no node.  Roster identities are assumed
unique (the data model's key condition; graphology's `addNode` rejects
duplicates). -/
theorem c9_active_flag_encodings (t1 t2 : Table) (e : Cell)
    (hnd : (activeEmailsOf t1).Nodup) :
    (hasNode (buildConnectionGraph t1 t2) e = true ↔ e ∈ activeEmailsOf t1)
    ∧ ∀ c : Cell, isActiveCell c = true ↔
        (c = Cell.bool true ∨ c = Cell.str "true" ∨ c = Cell.num 1 ∨ c = Cell.str "TRUE") := by
  refine ⟨?_, ?_⟩
  · rw [hasNode_iff_mem_keys]
    exact nodeKeys_build t1 t2 e
  · intro c
    simp only [isActiveCell, Bool.or_eq_true, beq_iff_eq]
    tauto

/-- Witness for C9: on a concrete roster, `"true"`, `1`, `"TRUE"` and
`true` give nodes while `"True"`, `0` and `false` do not. -/
theorem c9_active_flag_encodings_witness :
    (activeEmailsOf
        [some [Cell.str "h"], some [Cell.str "a", Cell.bool true],
          some [Cell.str "b", Cell.str "true"], some [Cell.str "c", Cell.num 1],
          some [Cell.str "d", Cell.str "TRUE"], some [Cell.str "x", Cell.str "True"],
          some [Cell.str "y", Cell.num 0], some [Cell.str "z", Cell.bool false]]).Nodup
    ∧ (hasNode
        (buildConnectionGraph
          [some [Cell.str "h"], some [Cell.str "a", Cell.bool true],
            some [Cell.str "b", Cell.str "true"], some [Cell.str "c", Cell.num 1],
            some [Cell.str "d", Cell.str "TRUE"], some [Cell.str "x", Cell.str "True"],
            some [Cell.str "y", Cell.num 0], some [Cell.str "z", Cell.bool false]] [])
        (Cell.str "x") = true ↔
        Cell.str "x" ∈ activeEmailsOf
          [some [Cell.str "h"], some [Cell.str "a", Cell.bool true],
            some [Cell.str "b", Cell.str "true"], some [Cell.str "c", Cell.num 1],
            some [Cell.str "d", Cell.str "TRUE"], some [Cell.str "x", Cell.str "True"],
            some [Cell.str "y", Cell.num 0], some [Cell.str "z", Cell.bool false]]) :=
  ⟨of_decide_eq_true (by with_unfolding_all rfl),
    (c9_active_flag_encodings _ [] _ (of_decide_eq_true (by with_unfolding_all rfl))).1⟩

/-! ### Claim C8: degenerate inputs yield an empty pair list -/

/-- C8: fewer than two active participants makes `generateOptimalPairs`
return `[]`, and a `null` cost matrix, a zero-row matrix, or a matrix
with an `undefined` or empty row makes `hungarianMatching` return `[]`.
The embedding is total, so each conjunct also witnesses that the code
path raises no exception. -/
theorem c8_degenerate_inputs_empty :
    (∀ (t1 t2 : Table) (pick : Nat → Nat), (activeEmailsOf t1).Nodup →
        (nodeKeys (buildConnectionGraph t1 t2)).length < 2 →
        generateOptimalPairs pick t1 t2 = [])
    ∧ (∀ es : List Cell, hungarianMatching es none = [])
    ∧ (∀ es : List Cell, hungarianMatching es (some []) = [])
    ∧ (∀ (es : List Cell) (rows : List (Option (List ℚ))),
        (none ∈ rows ∨ some [] ∈ rows) → hungarianMatching es (some rows) = []) := by
  refine ⟨?_, fun _ => rfl, fun _ => rfl, ?_⟩
  · intro t1 t2 pick _ hlt
    simp only [generateOptimalPairs]
    rw [if_pos hlt]
  · intro es rows h
    have hbad : (rows.any fun r => (r.getD []).isEmpty) = true := by
      rcases h with h | h
      · exact List.any_eq_true.mpr ⟨none, h, rfl⟩
      · exact List.any_eq_true.mpr ⟨some [], h, rfl⟩
    by_cases hlen : (rows.length == 0) = true
    · simp [hungarianMatching, hlen]
    · simp only [hungarianMatching, Bool.not_eq_true] at *
      rw [if_neg (by simp [hlen]), if_pos hbad]

/-- Witness for C8: one active participant, a null matrix, an empty
matrix and a matrix with an empty row all yield `[]`. -/
theorem c8_degenerate_inputs_empty_witness :
    ((activeEmailsOf [some [Cell.str "h"], some [Cell.str "a", Cell.bool true]]).Nodup
      ∧ (nodeKeys (buildConnectionGraph [some [Cell.str "h"], some [Cell.str "a", Cell.bool true]] [])).length < 2
      ∧ generateOptimalPairs (fun _ => 0) [some [Cell.str "h"], some [Cell.str "a", Cell.bool true]] [] = [])
    ∧ hungarianMatching [Cell.str "a"] none = []
    ∧ hungarianMatching [Cell.str "a"] (some []) = []
    ∧ hungarianMatching [Cell.str "a", Cell.str "b"] (some [some [1, 2], some []]) = [] :=
  ⟨⟨of_decide_eq_true (by with_unfolding_all rfl),
    of_decide_eq_true (by with_unfolding_all rfl),
    c8_degenerate_inputs_empty.1 _ [] (fun _ => 0)
      (of_decide_eq_true (by with_unfolding_all rfl))
      (of_decide_eq_true (by with_unfolding_all rfl))⟩,
   c8_degenerate_inputs_empty.2.1 _,
   c8_degenerate_inputs_empty.2.2.1 _,
   c8_degenerate_inputs_empty.2.2.2 _ _ (Or.inr (by simp))⟩

/-! ### Shared facts about the cost matrix -/

/-- `matrix[i][j]`, reading a missing row or entry as `0`. -/
def costEntry (m : List (List ℚ)) (i j : Nat) : ℚ := (m.getD i []).getD j 0

theorem buildCostMatrix_length (es : List Cell) (g : CGraph) (comms : List (Cell × Nat)) :
    (buildCostMatrix es g comms).length = es.length := by
  simp [buildCostMatrix]

theorem buildCostMatrix_row_length (es : List Cell) (g : CGraph) (comms : List (Cell × Nat))
    {i : Nat} (hi : i < es.length) :
    ((buildCostMatrix es g comms).getD i []).length = es.length := by
  rw [buildCostMatrix, List.getD_eq_getElem _ _ (by simpa using hi)]
  simp

theorem getD_map_range {α : Type} (n : Nat) (f : Nat → α) (d : α) {i : Nat} (hi : i < n) :
    ((List.range n).map f).getD i d = f i := by
  rw [List.getD_eq_getElem _ _ (by simpa using hi)]
  simp

theorem buildCostMatrix_entry (es : List Cell) (g : CGraph) (comms : List (Cell × Nat))
    {i j : Nat} (hi : i < es.length) (hj : j < es.length) :
    costEntry (buildCostMatrix es g comms) i j =
      (if i == j || es.getD i Cell.null == es.getD j Cell.null then
        ALGORITHM_CONFIG.HARD_CONSTRAINT_PENALTY
      else if hasEdge g (es.getD i Cell.null) (es.getD j Cell.null) then
        ALGORITHM_CONFIG.HARD_CONSTRAINT_PENALTY
      else
        -(ALGORITHM_CONFIG.WEIGHTS_DIVERSITY
            * calculateDiversityScore (es.getD i Cell.null) (es.getD j Cell.null) g
          + ALGORITHM_CONFIG.WEIGHTS_NETWORK_OPTIMIZATION
            * calculateNetworkScore (es.getD i Cell.null) (es.getD j Cell.null) g comms)) := by
  rw [costEntry, buildCostMatrix, getD_map_range _ _ _ hi, getD_map_range _ _ _ hj]

theorem calculateDiversityScore_nonneg (a b : Cell) (g : CGraph) :
    0 ≤ calculateDiversityScore a b g := by
  rw [calculateDiversityScore]
  split
  · norm_num
  · exact le_max_left 0 _

theorem calculateDiversityScore_le (a b : Cell) (g : CGraph) :
    calculateDiversityScore a b g ≤ 20 := by
  rw [calculateDiversityScore]
  split
  · norm_num
  · apply max_le
    · norm_num
    · have : (0 : ℚ) ≤ ((((neighbors g a).dedup).countP
          (fun n => (neighbors g b).dedup.contains n) : Nat) : ℚ) := by positivity
      linarith

theorem calculateNetworkScore_nonneg (a b : Cell) (g : CGraph) (comms : List (Cell × Nat)) :
    0 ≤ calculateNetworkScore a b g comms := by
  rw [calculateNetworkScore]
  have h1 : (0 : ℚ) ≤
      (match communityOf comms a, communityOf comms b with
        | some c1, some c2 => if c1 ≠ c2 then ALGORITHM_CONFIG.CROSS_COMMUNITY_BONUS else 0
        | _, _ => (0 : ℚ)) := by
    rcases communityOf comms a with _ | c1 <;> rcases communityOf comms b with _ | c2 <;>
      simp [ALGORITHM_CONFIG] <;> split <;> norm_num
  have h2 : (0 : ℚ) ≤
      (if hasNode g a && hasNode g b then
        if ((degree g a : Int) - (degree g b : Int)).natAbs > 2 then
          ALGORITHM_CONFIG.BRIDGE_BUILDING_BONUS
        else 0
      else (0 : ℚ)) := by
    split
    · split <;> simp [ALGORITHM_CONFIG]
    · norm_num
  exact add_nonneg h1 h2

theorem calculateNetworkScore_le (a b : Cell) (g : CGraph) (comms : List (Cell × Nat)) :
    calculateNetworkScore a b g comms ≤ 80 := by
  rw [calculateNetworkScore]
  have h1 : (match communityOf comms a, communityOf comms b with
        | some c1, some c2 => if c1 ≠ c2 then ALGORITHM_CONFIG.CROSS_COMMUNITY_BONUS else 0
        | _, _ => (0 : ℚ)) ≤ 50 := by
    rcases communityOf comms a with _ | c1 <;> rcases communityOf comms b with _ | c2 <;>
      simp [ALGORITHM_CONFIG] <;> split <;> norm_num
  have h2 : (if hasNode g a && hasNode g b then
        if ((degree g a : Int) - (degree g b : Int)).natAbs > 2 then
          ALGORITHM_CONFIG.BRIDGE_BUILDING_BONUS
        else 0
      else (0 : ℚ)) ≤ 30 := by
    split
    · split <;> simp [ALGORITHM_CONFIG]
    · norm_num
  linarith

/-- The composite desirability is nonnegative, so every never-met entry
of the cost matrix is nonpositive. -/
theorem composite_nonneg (a b : Cell) (g : CGraph) (comms : List (Cell × Nat)) :
    0 ≤ ALGORITHM_CONFIG.WEIGHTS_DIVERSITY * calculateDiversityScore a b g
      + ALGORITHM_CONFIG.WEIGHTS_NETWORK_OPTIMIZATION * calculateNetworkScore a b g comms := by
  have h1 := calculateDiversityScore_nonneg a b g
  have h2 := calculateNetworkScore_nonneg a b g comms
  have w1 : (0 : ℚ) ≤ ALGORITHM_CONFIG.WEIGHTS_DIVERSITY := by norm_num [ALGORITHM_CONFIG]
  have w2 : (0 : ℚ) ≤ ALGORITHM_CONFIG.WEIGHTS_NETWORK_OPTIMIZATION := by
    norm_num [ALGORITHM_CONFIG]
  positivity

theorem composite_le_44 (a b : Cell) (g : CGraph) (comms : List (Cell × Nat)) :
    ALGORITHM_CONFIG.WEIGHTS_DIVERSITY * calculateDiversityScore a b g
      + ALGORITHM_CONFIG.WEIGHTS_NETWORK_OPTIMIZATION * calculateNetworkScore a b g comms
      ≤ 44 := by
  have h1 := calculateDiversityScore_le a b g
  have h2 := calculateNetworkScore_le a b g comms
  have h3 := calculateDiversityScore_nonneg a b g
  have h4 := calculateNetworkScore_nonneg a b g comms
  simp only [ALGORITHM_CONFIG] at *
  nlinarith

/-! ### Claim C5: the cost-matrix entry rule -/

/-- C5: entry (i,j) of `buildCostMatrix` is the hard-constraint penalty
exactly when `i = j`, the two identities coincide (the duplicated
"twice" participant against itself), or the two identities already
share an edge; every other entry is the negated weighted composite of
the diversity and network scores.  (The `isNaN` fallback of the source
replaces an impossible not-a-number by 0: both scores are genuine
rationals built from counts, so the composite is never NaN and the
fallback never fires.) -/
theorem c5_cost_matrix_entries (es : List Cell) (g : CGraph) (comms : List (Cell × Nat))
    {i j : Nat} (hi : i < es.length) (hj : j < es.length) :
    (costEntry (buildCostMatrix es g comms) i j = ALGORITHM_CONFIG.HARD_CONSTRAINT_PENALTY
      ↔ (i = j ∨ es.getD i Cell.null = es.getD j Cell.null
          ∨ hasEdge g (es.getD i Cell.null) (es.getD j Cell.null) = true))
    ∧ (¬(i = j ∨ es.getD i Cell.null = es.getD j Cell.null
          ∨ hasEdge g (es.getD i Cell.null) (es.getD j Cell.null) = true) →
        costEntry (buildCostMatrix es g comms) i j =
          -(ALGORITHM_CONFIG.WEIGHTS_DIVERSITY
              * calculateDiversityScore (es.getD i Cell.null) (es.getD j Cell.null) g
            + ALGORITHM_CONFIG.WEIGHTS_NETWORK_OPTIMIZATION
              * calculateNetworkScore (es.getD i Cell.null) (es.getD j Cell.null) g comms)) := by
  rw [buildCostMatrix_entry es g comms hi hj]
  by_cases h1 : i = j ∨ es.getD i Cell.null = es.getD j Cell.null
  · rw [if_pos (by simpa [beq_iff_eq] using h1)]
    exact ⟨⟨fun _ => h1.imp id Or.inl, fun _ => rfl⟩, fun h => absurd (h1.imp id Or.inl) h⟩
  · rw [if_neg (by simpa [beq_iff_eq] using h1)]
    by_cases h2 : hasEdge g (es.getD i Cell.null) (es.getD j Cell.null) = true
    · rw [if_pos h2]
      exact ⟨⟨fun _ => Or.inr (Or.inr h2), fun _ => rfl⟩,
        fun h => absurd (Or.inr (Or.inr h2)) h⟩
    · rw [if_neg h2]
      have hc := composite_nonneg (es.getD i Cell.null) (es.getD j Cell.null) g comms
      have hne : -(ALGORITHM_CONFIG.WEIGHTS_DIVERSITY
            * calculateDiversityScore (es.getD i Cell.null) (es.getD j Cell.null) g
          + ALGORITHM_CONFIG.WEIGHTS_NETWORK_OPTIMIZATION
            * calculateNetworkScore (es.getD i Cell.null) (es.getD j Cell.null) g comms)
          ≠ ALGORITHM_CONFIG.HARD_CONSTRAINT_PENALTY := by
        have hp : (0 : ℚ) < ALGORITHM_CONFIG.HARD_CONSTRAINT_PENALTY := by
          norm_num [ALGORITHM_CONFIG]
        intro heq
        rw [← heq] at hp
        linarith
      refine ⟨⟨fun h => absurd h hne, ?_⟩, fun _ => rfl⟩
      intro h
      rcases h with h | h | h
      · exact absurd (Or.inl h) h1
      · exact absurd (Or.inr h) h1
      · exact absurd h h2

/-- Witness for C5 at a concrete matrix: two active users `a`, `b` who
have met; entry (0,0) is the penalty, entry (0,1) is the penalty
(edge), and on a never-met pair the formula branch applies. -/
theorem c5_cost_matrix_entries_witness :
    ((0 : Nat) < ([Cell.str "a", Cell.str "b"] : List Cell).length
      ∧ (1 : Nat) < ([Cell.str "a", Cell.str "b"] : List Cell).length)
    ∧ (costEntry (buildCostMatrix [Cell.str "a", Cell.str "b"] ⟨[], []⟩ []) 0 1
        = ALGORITHM_CONFIG.HARD_CONSTRAINT_PENALTY ↔
        ((0 : Nat) = 1
          ∨ ([Cell.str "a", Cell.str "b"] : List Cell).getD 0 Cell.null
              = ([Cell.str "a", Cell.str "b"] : List Cell).getD 1 Cell.null
          ∨ hasEdge (⟨[], []⟩ : CGraph)
              (([Cell.str "a", Cell.str "b"] : List Cell).getD 0 Cell.null)
              (([Cell.str "a", Cell.str "b"] : List Cell).getD 1 Cell.null) = true)) :=
  ⟨⟨by norm_num, by norm_num⟩,
    (c5_cost_matrix_entries [Cell.str "a", Cell.str "b"] ⟨[], []⟩ [] (by norm_num) (by norm_num)).1⟩

/-! ### Claim C6: the cost matrix is symmetric in value -/

theorem hasEdge_symm (g : CGraph) (a b : Cell) : hasEdge g a b = hasEdge g b a := by
  unfold hasEdge
  congr 1
  funext e
  unfold edgeMatches
  exact Bool.or_comm _ _

theorem countP_contains_comm (l1 l2 : List Cell) (h1 : l1.Nodup) (h2 : l2.Nodup) :
    l1.countP (fun x => l2.contains x) = l2.countP (fun x => l1.contains x) := by
  have key : ∀ (a b : List Cell), a.Nodup →
      a.countP (fun x => b.contains x) = (a.toFinset ∩ b.toFinset).card := by
    intro a b ha
    rw [List.countP_eq_length_filter]
    have hnod : (a.filter (fun x => b.contains x)).Nodup := ha.filter _
    rw [← List.toFinset_card_of_nodup hnod]
    congr 1
    ext x
    simp [List.mem_toFinset, List.mem_filter, Finset.mem_inter]
  rw [key l1 l2 h1, key l2 l1 h2, Finset.inter_comm]

theorem calculateDiversityScore_symm (a b : Cell) (g : CGraph) :
    calculateDiversityScore a b g = calculateDiversityScore b a g := by
  unfold calculateDiversityScore
  rw [show (!(hasNode g a) || !(hasNode g b)) = (!(hasNode g b) || !(hasNode g a)) from
    Bool.or_comm _ _]
  by_cases h : (!(hasNode g b) || !(hasNode g a)) = true
  · rw [if_pos h, if_pos h]
  · rw [if_neg h, if_neg h]
    dsimp only
    rw [countP_contains_comm _ _ (List.nodup_dedup _) (List.nodup_dedup _)]

theorem calculateNetworkScore_symm (a b : Cell) (g : CGraph) (comms : List (Cell × Nat)) :
    calculateNetworkScore a b g comms = calculateNetworkScore b a g comms := by
  unfold calculateNetworkScore
  have h1 : (match communityOf comms a, communityOf comms b with
        | some c1, some c2 => if c1 ≠ c2 then ALGORITHM_CONFIG.CROSS_COMMUNITY_BONUS else 0
        | _, _ => (0 : ℚ)) =
      (match communityOf comms b, communityOf comms a with
        | some c1, some c2 => if c1 ≠ c2 then ALGORITHM_CONFIG.CROSS_COMMUNITY_BONUS else 0
        | _, _ => (0 : ℚ)) := by
    rcases communityOf comms a with _ | c1 <;> rcases communityOf comms b with _ | c2 <;> simp
    by_cases hc : c1 = c2 <;> simp [hc, Ne.symm, eq_comm]
  have h2 : (if hasNode g a && hasNode g b then
        if ((degree g a : Int) - (degree g b : Int)).natAbs > 2 then
          ALGORITHM_CONFIG.BRIDGE_BUILDING_BONUS
        else 0
      else (0 : ℚ)) =
      (if hasNode g b && hasNode g a then
        if ((degree g b : Int) - (degree g a : Int)).natAbs > 2 then
          ALGORITHM_CONFIG.BRIDGE_BUILDING_BONUS
        else 0
      else (0 : ℚ)) := by
    rw [Bool.and_comm]
    have : ((degree g a : Int) - (degree g b : Int)).natAbs
        = ((degree g b : Int) - (degree g a : Int)).natAbs := by
      rw [← Int.natAbs_neg, neg_sub]
    rw [this]
  rw [h1, h2]

/-- C6: for every participant list, graph and community map, the matrix
built by `buildCostMatrix` is symmetric in value (out-of-range entries
read as the same default on both sides). -/
theorem c6_cost_matrix_symmetric (es : List Cell) (g : CGraph) (comms : List (Cell × Nat))
    (i j : Nat) :
    costEntry (buildCostMatrix es g comms) i j = costEntry (buildCostMatrix es g comms) j i := by
  by_cases hi : i < es.length
  · by_cases hj : j < es.length
    · rw [buildCostMatrix_entry es g comms hi hj, buildCostMatrix_entry es g comms hj hi]
      have heq : (i == j || es.getD i Cell.null == es.getD j Cell.null)
          = (j == i || es.getD j Cell.null == es.getD i Cell.null) := by
        rw [@Bool.beq_comm _ _ _ i j, @Bool.beq_comm _ _ _ (es.getD i Cell.null)]
      rw [heq, hasEdge_symm g (es.getD i Cell.null) (es.getD j Cell.null),
        calculateDiversityScore_symm (es.getD i Cell.null) (es.getD j Cell.null) g,
        calculateNetworkScore_symm (es.getD i Cell.null) (es.getD j Cell.null) g comms]
    · have hrow : ((buildCostMatrix es g comms).getD i []).length = es.length :=
        buildCostMatrix_row_length es g comms hi
      rw [costEntry, costEntry,
        List.getD_eq_default ((buildCostMatrix es g comms).getD i []) (0 : ℚ)
          (by rw [hrow]; omega),
        List.getD_eq_default (buildCostMatrix es g comms) ([] : List ℚ)
          (by rw [buildCostMatrix_length]; omega)]
      rfl
  · rw [costEntry, costEntry,
      List.getD_eq_default (buildCostMatrix es g comms) ([] : List ℚ)
        (by rw [buildCostMatrix_length]; omega)]
    by_cases hj : j < es.length
    · rw [List.getD_eq_default ((buildCostMatrix es g comms).getD j []) (0 : ℚ)
        (by rw [buildCostMatrix_row_length es g comms hj]; omega)]
      rfl
    · rw [List.getD_eq_default (buildCostMatrix es g comms) ([] : List ℚ)
        (by rw [buildCostMatrix_length]; omega)]
      rfl

/-! ### Claim C2: the backtracking branch is not cost-optimal -/

/-- A well-formed symmetric 4-by-4 cost matrix with penalty diagonal on
which the backtracking search prunes away the optimal matching: the
prune `currentCost >= bestCost` is unsound when pair costs are
negative, which the matrices this solver is built for are. -/
def c2employees : List Cell := [Cell.str "a", Cell.str "b", Cell.str "c", Cell.str "d"]

def c2costMatrix : List (Option (List ℚ)) :=
  [some [10000, -10, -6, 0],
   some [-10, 10000, 0, -6],
   some [-6, 0, 10000, 0],
   some [0, -6, 0, 10000]]

/-- C2: on the failing matrix `c2costMatrix` (4 participants, so the
backtracking branch runs), the solver returns the matching
`{a-b, c-d}` of total cost `-10`, although the candidate pool contains
the disjoint matching `{a-c, b-d}` of total cost `-12 < -10`.  The
source's own framing ("use backtracking for optimal solution",
"guarantees the mathematically optimal matching") is violated: after
the first complete matching sets `bestCost = -10`, every branch whose
partial cost is `-6` is pruned by `currentCost >= bestCost` even
though its negative-cost completions would beat `-10`. -/
theorem c2_backtracking_not_optimal :
    hungarianMatching c2employees (some c2costMatrix)
        = [(Cell.str "a", Cell.str "b"), (Cell.str "c", Cell.str "d")]
    ∧ (⟨0, 1, -10⟩ : IPair) ∈ possiblePairs c2employees c2costMatrix
    ∧ (⟨2, 3, 0⟩ : IPair) ∈ possiblePairs c2employees c2costMatrix
    ∧ (⟨0, 2, -6⟩ : IPair) ∈ possiblePairs c2employees c2costMatrix
    ∧ (⟨1, 3, -6⟩ : IPair) ∈ possiblePairs c2employees c2costMatrix
    ∧ ((-6 : ℚ) + -6 < -10 + 0) :=
  ⟨by with_unfolding_all rfl,
   of_decide_eq_true (by with_unfolding_all rfl),
   of_decide_eq_true (by with_unfolding_all rfl),
   of_decide_eq_true (by with_unfolding_all rfl),
   of_decide_eq_true (by with_unfolding_all rfl),
   of_decide_eq_true (by with_unfolding_all rfl)⟩

/-! ### Claim C3: invariants of the built connection graph -/

/-- Unordered equality of two endpoint pairs. -/
def pairEq (a b c d : Cell) : Prop := (a = c ∧ b = d) ∨ (a = d ∧ b = c)

instance (a b c d : Cell) : Decidable (pairEq a b c d) := by
  unfold pairEq
  infer_instance

/-- Whether a history data row records a meeting between active
participants `a` and `b` (in either order): both email cells truthy,
both identities active nodes, and the unordered endpoint pair is
`{a, b}`. -/
def histRowMatches (g : CGraph) (a b : Cell) (row : Row) : Bool :=
  match row with
  | none => false
  | some r =>
    let e1 := getCell r 0
    let e2 := getCell r 1
    e1.truthy && e2.truthy && hasNode g e1 && hasNode g e2 &&
      ((e1 == a && e2 == b) || (e1 == b && e2 == a))

/-- No two stored edges cover the same unordered endpoint pair. -/
def parallelFree (edges : List EdgeRec) : Prop :=
  edges.Pairwise (fun x y => edgeMatches x.src x.dst y = false)

theorem edgeMatches_congr {a b c d : Cell} (h : pairEq a b c d) :
    edgeMatches a b = edgeMatches c d := by
  funext e
  rcases h with ⟨rfl, rfl⟩ | ⟨rfl, rfl⟩
  · rfl
  · unfold edgeMatches
    exact Bool.or_comm _ _

theorem edgeMatches_disjoint {a b c d : Cell} (h : ¬ pairEq a b c d) (e : EdgeRec)
    (hm : edgeMatches c d e = true) : edgeMatches a b e = false := by
  rw [← Bool.not_eq_true]
  intro hab
  apply h
  unfold edgeMatches at hm hab
  simp only [Bool.or_eq_true, Bool.and_eq_true, beq_iff_eq] at hm hab
  unfold pairEq
  rcases hm with ⟨h1, h2⟩ | ⟨h1, h2⟩ <;> rcases hab with ⟨h3, h4⟩ | ⟨h3, h4⟩
  · exact Or.inl ⟨h3.symm.trans h1, h4.symm.trans h2⟩
  · exact Or.inr ⟨h4.symm.trans h2, h3.symm.trans h1⟩
  · exact Or.inr ⟨h3.symm.trans h1, h4.symm.trans h2⟩
  · exact Or.inl ⟨h4.symm.trans h2, h3.symm.trans h1⟩

theorem bumpEdge_endpoints (l : List EdgeRec) (a b : Cell) (md : Option ParsedDate) :
    (bumpEdge l a b md).map (fun e => (e.src, e.dst)) = l.map (fun e => (e.src, e.dst)) := by
  induction l with
  | nil => rfl
  | cons e rest ih =>
    unfold bumpEdge
    by_cases h : edgeMatches a b e = true
    · rw [if_pos h]
      simp
    · rw [if_neg h]
      simpa using ih

theorem any_matches_of_endpoints {l1 l2 : List EdgeRec}
    (h : l1.map (fun e => (e.src, e.dst)) = l2.map (fun e => (e.src, e.dst)))
    (a b : Cell) : l1.any (edgeMatches a b) = l2.any (edgeMatches a b) := by
  have key : ∀ l : List EdgeRec, l.any (edgeMatches a b)
      = (l.map (fun e => (e.src, e.dst))).any
          (fun p => (p.1 == a && p.2 == b) || (p.1 == b && p.2 == a)) := by
    intro l
    induction l with
    | nil => rfl
    | cons e r ih =>
      simp only [List.any_cons, List.map_cons, ih]
      rfl
  rw [key, key, h]

theorem hasEdge_bump (g : CGraph) (a b c d : Cell) (md : Option ParsedDate) :
    ({ g with edges := bumpEdge g.edges c d md } : CGraph).edges.any (edgeMatches a b)
      = g.edges.any (edgeMatches a b) :=
  any_matches_of_endpoints (bumpEdge_endpoints g.edges c d md) a b

theorem parallelFree_of_endpoints {l1 l2 : List EdgeRec}
    (h : l1.map (fun e => (e.src, e.dst)) = l2.map (fun e => (e.src, e.dst)))
    (hp : parallelFree l2) : parallelFree l1 := by
  unfold parallelFree at *
  have h2 : ∀ (m1 m2 : List EdgeRec),
      m1.map (fun e => (e.src, e.dst)) = m2.map (fun e => (e.src, e.dst)) →
      m2.Pairwise (fun x y => edgeMatches x.src x.dst y = false) →
      m1.Pairwise (fun x y => edgeMatches x.src x.dst y = false) := by
    intro m1
    induction m1 with
    | nil => intro m2 _ _; exact List.Pairwise.nil
    | cons e rest ih =>
      intro m2 hm hp2
      match m2 with
      | [] => simp at hm
      | f :: rest2 =>
        simp only [List.map_cons, List.cons.injEq] at hm
        rcases hm with ⟨hef, hrest⟩
        rcases List.pairwise_cons.mp hp2 with ⟨hf, hp3⟩
        refine List.pairwise_cons.mpr ⟨?_, ih rest2 hrest hp3⟩
        intro y hy
        have hsrc : e.src = f.src := congrArg Prod.fst hef
        have hdst : e.dst = f.dst := congrArg Prod.snd hef
        rw [hsrc, hdst]
        have hmem : (y.src, y.dst) ∈ rest2.map (fun e => (e.src, e.dst)) := by
          rw [← hrest]
          exact List.mem_map.mpr ⟨y, hy, rfl⟩
        rcases List.mem_map.mp hmem with ⟨z, hz, hez⟩
        have hzs : z.src = y.src := congrArg Prod.fst hez
        have hzd : z.dst = y.dst := congrArg Prod.snd hez
        have := hf z hz
        unfold edgeMatches at *
        rw [← hzs, ← hzd]
        exact this
  exact h2 l1 l2 h hp

/-- Edge-payload count lookup on a raw edge list. -/
def edgeCountL (l : List EdgeRec) (a b : Cell) : Nat :=
  match l.find? (edgeMatches a b) with
  | some e => e.attrs.count
  | none => 0

theorem getEdgeCount_eq (g : CGraph) (a b : Cell) :
    getEdgeCount g a b = edgeCountL g.edges a b := rfl

theorem pairEq_symm {a b c d : Cell} (h : pairEq a b c d) : pairEq c d a b := by
  rcases h with ⟨rfl, rfl⟩ | ⟨rfl, rfl⟩
  · exact Or.inl ⟨rfl, rfl⟩
  · exact Or.inr ⟨rfl, rfl⟩

theorem edgeCountL_congr {a b c d : Cell} (hpq : pairEq a b c d) (l : List EdgeRec) :
    edgeCountL l a b = edgeCountL l c d := by
  unfold edgeCountL
  rw [edgeMatches_congr hpq]

theorem edgeCountL_bump_self (l : List EdgeRec) (c d : Cell) (md : Option ParsedDate)
    (hex : l.any (edgeMatches c d) = true) :
    edgeCountL (bumpEdge l c d md) c d = edgeCountL l c d + 1 := by
  induction l with
  | nil => simp at hex
  | cons e rest ih =>
    unfold bumpEdge
    by_cases h : edgeMatches c d e = true
    · rw [if_pos h]
      unfold edgeCountL
      have h2 : edgeMatches c d ({ e with attrs := ⟨e.attrs.meetings ++ [md], e.attrs.count + 1⟩ } : EdgeRec) = true := h
      rw [List.find?_cons_of_pos _ h2, List.find?_cons_of_pos _ h]
    · rw [if_neg h]
      unfold edgeCountL
      rw [List.find?_cons_of_neg _ (by simpa using h), List.find?_cons_of_neg _ (by simpa using h)]
      have hex2 : rest.any (edgeMatches c d) = true := by
        rcases List.any_eq_true.mp hex with ⟨x, hx, hmx⟩
        rcases List.mem_cons.mp hx with rfl | hx2
        · exact absurd hmx h
        · exact List.any_eq_true.mpr ⟨x, hx2, hmx⟩
      exact ih hex2

theorem edgeCountL_bump_matching (l : List EdgeRec) (a b c d : Cell) (md : Option ParsedDate)
    (hpq : pairEq a b c d) (hex : l.any (edgeMatches c d) = true) :
    edgeCountL (bumpEdge l c d md) a b = edgeCountL l a b + 1 := by
  rw [edgeCountL_congr hpq, edgeCountL_congr hpq]
  exact edgeCountL_bump_self l c d md hex

theorem edgeCountL_bump_other (l : List EdgeRec) (a b c d : Cell) (md : Option ParsedDate)
    (hpq : ¬ pairEq a b c d) :
    edgeCountL (bumpEdge l c d md) a b = edgeCountL l a b := by
  induction l with
  | nil => rfl
  | cons e rest ih =>
    unfold bumpEdge
    by_cases h : edgeMatches c d e = true
    · rw [if_pos h]
      have hne : edgeMatches a b e = false := edgeMatches_disjoint hpq e h
      have hne2 : edgeMatches a b ({ e with attrs := ⟨e.attrs.meetings ++ [md], e.attrs.count + 1⟩ } : EdgeRec) = false := hne
      unfold edgeCountL
      rw [List.find?_cons_of_neg _ (by simp [hne2]), List.find?_cons_of_neg _ (by simp [hne])]
    · rw [if_neg h]
      by_cases hab : edgeMatches a b e = true
      · unfold edgeCountL
        rw [List.find?_cons_of_pos _ hab, List.find?_cons_of_pos _ hab]
      · unfold edgeCountL
        rw [List.find?_cons_of_neg _ (by simpa using hab), List.find?_cons_of_neg _ (by simpa using hab)]
        exact ih

theorem edgeCountL_append_new (l : List EdgeRec) (a b c d : Cell) (attrs : EdgeAttrs) :
    edgeCountL (l ++ [⟨c, d, attrs⟩]) a b
      = (match l.find? (edgeMatches a b) with
         | some e => e.attrs.count
         | none => if edgeMatches a b ⟨c, d, attrs⟩ then attrs.count else 0) := by
  unfold edgeCountL
  rw [List.find?_append]
  rcases hf : l.find? (edgeMatches a b) with _ | e
  · simp only [Option.none_or]
    by_cases h : edgeMatches a b (⟨c, d, attrs⟩ : EdgeRec) = true
    · rw [List.find?_cons_of_pos _ h]
      simp [h]
    · rw [List.find?_cons_of_neg _ (by simpa using h)]
      simp [h]
  · simp

theorem hasNode_congr_keys {g g' : CGraph}
    (h : g'.nodes.map Prod.fst = g.nodes.map Prod.fst) (x : Cell) :
    hasNode g' x = hasNode g x := by
  have key : ∀ (l : List (Cell × NodeAttrs)),
      l.any (fun n => n.1 == x) = (l.map Prod.fst).any (fun k => k == x) := by
    intro l
    induction l with
    | nil => rfl
    | cons p rest ih =>
      simp only [List.any_cons, List.map_cons, ih]
  rw [hasNode, hasNode, key, key, h]

theorem histRowMatches_congr {g g' : CGraph}
    (h : ∀ x, hasNode g' x = hasNode g x) (a b : Cell) (row : Row) :
    histRowMatches g' a b row = histRowMatches g a b row := by
  match row with
  | none => rfl
  | some r =>
    unfold histRowMatches
    dsimp only
    rw [h (getCell r 0), h (getCell r 1)]

theorem matches_bool_eq_pairEq (e1 e2 a b : Cell) :
    ((e1 == a && e2 == b) || (e1 == b && e2 == a)) = decide (pairEq e1 e2 a b) := by
  by_cases h : pairEq e1 e2 a b
  · rw [decide_eq_true h]
    rcases h with ⟨rfl, rfl⟩ | ⟨rfl, rfl⟩
    · simp
    · simp
  · rw [decide_eq_false h]
    rw [Bool.or_eq_false_iff, Bool.and_eq_false_iff, Bool.and_eq_false_iff]
    unfold pairEq at h
    push_neg at h
    constructor
    · by_cases h1 : e1 = a
      · right
        rw [beq_eq_false_iff_ne]
        exact h.1 h1
      · left
        rw [beq_eq_false_iff_ne]
        exact h1
    · by_cases h1 : e1 = b
      · right
        rw [beq_eq_false_iff_ne]
        exact h.2 h1
      · left
        rw [beq_eq_false_iff_ne]
        exact h1

/-- Effect of one history row on the graph: node set unchanged (up to
meeting counters), one more occurrence on the matched unordered pair,
edge existence extended by exactly that pair, and the no-parallel-edge
invariant is preserved. -/
theorem addHistoryRow_step (g : CGraph) (row : Row) (hpf : parallelFree g.edges) :
    (∀ x, hasNode (addHistoryRow g row) x = hasNode g x)
    ∧ (∀ a b, hasEdge (addHistoryRow g row) a b
        = (hasEdge g a b || histRowMatches g a b row))
    ∧ (∀ a b, getEdgeCount (addHistoryRow g row) a b
        = getEdgeCount g a b + (if histRowMatches g a b row then 1 else 0))
    ∧ parallelFree (addHistoryRow g row).edges := by
  refine ⟨hasNode_congr_keys (keys_addHistoryRow g row), ?_⟩
  match row with
  | none => exact ⟨fun a b => by simp [addHistoryRow, histRowMatches],
      fun a b => by simp [addHistoryRow, histRowMatches], by simpa [addHistoryRow] using hpf⟩
  | some r =>
    rcases ht1 : (getCell r 0).truthy with _ | _
    · have hg : addHistoryRow g (some r) = g := by
        unfold addHistoryRow
        dsimp only
        rw [ht1]
        simp
      have hm : ∀ a b, histRowMatches g a b (some r) = false := by
        intro a b
        unfold histRowMatches
        dsimp only
        rw [ht1]
        simp
      exact ⟨fun a b => by rw [hg, hm, Bool.or_false],
        fun a b => by rw [hg, hm]; simp, by rw [hg]; exact hpf⟩
    · rcases ht2 : (getCell r 1).truthy with _ | _
      · have hg : addHistoryRow g (some r) = g := by
          unfold addHistoryRow
          dsimp only
          rw [ht1, ht2]
          simp
        have hm : ∀ a b, histRowMatches g a b (some r) = false := by
          intro a b
          unfold histRowMatches
          dsimp only
          rw [ht2]
          simp
        exact ⟨fun a b => by rw [hg, hm, Bool.or_false],
          fun a b => by rw [hg, hm]; simp, by rw [hg]; exact hpf⟩
      · rcases hn1 : hasNode g (getCell r 0) with _ | _
        · have hg : addHistoryRow g (some r) = g := by
            unfold addHistoryRow
            dsimp only
            rw [ht1, ht2, hn1]
            simp
          have hm : ∀ a b, histRowMatches g a b (some r) = false := by
            intro a b
            unfold histRowMatches
            dsimp only
            rw [hn1]
            simp
          exact ⟨fun a b => by rw [hg, hm, Bool.or_false],
            fun a b => by rw [hg, hm]; simp, by rw [hg]; exact hpf⟩
        · rcases hn2 : hasNode g (getCell r 1) with _ | _
          · have hg : addHistoryRow g (some r) = g := by
              unfold addHistoryRow
              dsimp only
              rw [ht1, ht2, hn1, hn2]
              simp
            have hm : ∀ a b, histRowMatches g a b (some r) = false := by
              intro a b
              unfold histRowMatches
              dsimp only
              rw [hn2]
              simp
            exact ⟨fun a b => by rw [hg, hm, Bool.or_false],
              fun a b => by rw [hg, hm]; simp, by rw [hg]; exact hpf⟩
          · -- valid row
            have hm : ∀ a b, histRowMatches g a b (some r)
                = decide (pairEq (getCell r 0) (getCell r 1) a b) := by
              intro a b
              unfold histRowMatches
              dsimp only
              rw [ht1, ht2, hn1, hn2, ← matches_bool_eq_pairEq]
              simp
            have hedges : (addHistoryRow g (some r)).edges =
                (if hasEdge g (getCell r 0) (getCell r 1) then
                  bumpEdge g.edges (getCell r 0) (getCell r 1) (parseDate (getCell r 2))
                else g.edges ++ [⟨getCell r 0, getCell r 1,
                  ⟨[parseDate (getCell r 2)], 1⟩⟩]) := by
              unfold addHistoryRow
              dsimp only
              rw [ht1, ht2, hn1, hn2]
              simp only [Bool.not_true, Bool.or_self, Bool.false_or, if_false]
              rcases hhe : hasEdge g (getCell r 0) (getCell r 1) with _ | _ <;>
                simp [incMeetingCount, hhe]
            rcases hhe : hasEdge g (getCell r 0) (getCell r 1) with _ | _
            · -- never met: new edge appended
              rw [if_neg (by simp [hhe])] at hedges
              refine ⟨?_, ?_, ?_⟩
              · intro a b
                rw [hasEdge, hedges, List.any_append, hm]
                have : ([⟨getCell r 0, getCell r 1, ⟨[parseDate (getCell r 2)], 1⟩⟩]
                    : List EdgeRec).any (edgeMatches a b)
                    = decide (pairEq (getCell r 0) (getCell r 1) a b) := by
                  simp only [List.any_cons, List.any_nil, Bool.or_false]
                  rw [← matches_bool_eq_pairEq]
                  rfl
                rw [this]
                rfl
              · intro a b
                rw [getEdgeCount_eq, getEdgeCount_eq, hedges, edgeCountL_append_new, hm]
                by_cases hp : pairEq (getCell r 0) (getCell r 1) a b
                · have hfind : g.edges.find? (edgeMatches a b) = none := by
                    rcases hf : g.edges.find? (edgeMatches a b) with _ | e
                    · rfl
                    · have hmem := List.find?_some hf
                      have hmem2 := List.mem_of_find?_eq_some hf
                      have : edgeMatches (getCell r 0) (getCell r 1) e = true := by
                        rw [← edgeMatches_congr (pairEq_symm hp)]
                        exact hmem
                      have : hasEdge g (getCell r 0) (getCell r 1) = true :=
                        List.any_eq_true.mpr ⟨e, hmem2, this⟩
                      rw [this] at hhe
                      cases hhe
                  rw [hfind]
                  have hnew : edgeMatches a b
                      (⟨getCell r 0, getCell r 1, ⟨[parseDate (getCell r 2)], 1⟩⟩ : EdgeRec)
                      = true := by
                    rw [edgeMatches_congr (pairEq_symm hp)]
                    simp [edgeMatches]
                  rw [decide_eq_true hp]
                  simp only [edgeCountL, hfind, hnew, if_true]
                · have hnew : edgeMatches a b
                      (⟨getCell r 0, getCell r 1, ⟨[parseDate (getCell r 2)], 1⟩⟩ : EdgeRec)
                      = false := by
                    apply edgeMatches_disjoint (fun hc => hp (pairEq_symm hc))
                    simp [edgeMatches]
                  rw [decide_eq_false hp]
                  simp only [edgeCountL, hnew, if_false, Bool.false_eq_true, add_zero]
              · rw [hedges]
                unfold parallelFree
                rw [List.pairwise_append]
                refine ⟨hpf, List.pairwise_singleton _ _, ?_⟩
                intro x hx y hy
                rw [List.mem_singleton] at hy
                subst hy
                apply edgeMatches_disjoint
                · intro hc
                  have : edgeMatches (getCell r 0) (getCell r 1) x = true := by
                    rw [← edgeMatches_congr hc]
                    simp [edgeMatches]
                  have : hasEdge g (getCell r 0) (getCell r 1) = true :=
                    List.any_eq_true.mpr ⟨x, hx, this⟩
                  rw [this] at hhe
                  cases hhe
                · simp [edgeMatches]
            · -- already met: bump the existing edge
              rw [if_pos (by simp [hhe])] at hedges
              refine ⟨?_, ?_, ?_⟩
              · intro a b
                rw [hasEdge, hedges,
                  any_matches_of_endpoints (bumpEdge_endpoints g.edges _ _ _) a b, hm]
                by_cases hp : pairEq (getCell r 0) (getCell r 1) a b
                · have : g.edges.any (edgeMatches a b) = true := by
                    rw [edgeMatches_congr (pairEq_symm hp)]
                    exact hhe
                  rw [this, decide_eq_true hp]
                  have h2 : hasEdge g a b = true := this
                  rw [h2, Bool.or_self]
                · rw [decide_eq_false hp, Bool.or_false]
                  rfl
              · intro a b
                rw [getEdgeCount_eq, getEdgeCount_eq, hedges, hm]
                by_cases hp : pairEq (getCell r 0) (getCell r 1) a b
                · rw [decide_eq_true hp, if_pos rfl]
                  exact edgeCountL_bump_matching g.edges a b _ _ _ (pairEq_symm hp) hhe
                · rw [decide_eq_false hp]
                  simp only [Bool.false_eq_true, if_false, add_zero]
                  exact edgeCountL_bump_other g.edges a b _ _ _
                    (fun hc => hp (pairEq_symm hc))
              · rw [hedges]
                exact parallelFree_of_endpoints (bumpEdge_endpoints g.edges _ _ _) hpf

/-- Accumulated effect of the whole history loop. -/
theorem historyFold_edges (rows : List Row) (g : CGraph) (hpf : parallelFree g.edges) :
    (∀ x, hasNode (rows.foldl addHistoryRow g) x = hasNode g x)
    ∧ (∀ a b, hasEdge (rows.foldl addHistoryRow g) a b
        = (hasEdge g a b || rows.any (histRowMatches g a b)))
    ∧ (∀ a b, getEdgeCount (rows.foldl addHistoryRow g) a b
        = getEdgeCount g a b + rows.countP (histRowMatches g a b))
    ∧ parallelFree (rows.foldl addHistoryRow g).edges := by
  induction rows generalizing g with
  | nil => exact ⟨fun x => rfl, fun a b => by simp, fun a b => by simp [List.countP_nil], hpf⟩
  | cons row rest ih =>
    rcases addHistoryRow_step g row hpf with ⟨sh, se, sc, sp⟩
    rcases ih (addHistoryRow g row) sp with ⟨ihh, ihe, ihc, ihp⟩
    rw [List.foldl_cons] at *
    refine ⟨fun x => (ihh x).trans (sh x), ?_, ?_, ihp⟩
    · intro a b
      rw [ihe a b, se a b, List.any_cons]
      have hany : ∀ (l : List Row) (p q : Row → Bool), (∀ x ∈ l, p x = q x) →
          l.any p = l.any q := by
        intro l p q h
        induction l with
        | nil => rfl
        | cons x rest2 ih =>
          rw [List.any_cons, List.any_cons, h x (by simp),
            ih (fun y hy => h y (List.mem_cons_of_mem x hy))]
      have : rest.any (histRowMatches (addHistoryRow g row) a b)
          = rest.any (histRowMatches g a b) :=
        hany rest _ _ (fun x _ => histRowMatches_congr sh a b x)
      rw [this, Bool.or_assoc]
    · intro a b
      rw [ihc a b, sc a b, List.countP_cons]
      have : rest.countP (histRowMatches (addHistoryRow g row) a b)
          = rest.countP (histRowMatches g a b) :=
        List.countP_congr (fun x _ => by rw [histRowMatches_congr sh a b x])
      rw [this]
      omega

/-- A history data row whose two endpoint cells never coincide (when
both are present). -/
def histRowSelfFree (row : Row) : Bool :=
  match row with
  | none => true
  | some r => !((getCell r 0).truthy && (getCell r 1).truthy && getCell r 0 == getCell r 1)

/-- C3 (amended): for rosters with unique identities and histories
none of whose rows pairs an identity with itself, the built graph
satisfies all four invariants: edge existence iff a matching history
row exists, edge count = number of matching rows, no self-loops and no
parallel edges, and nodes exactly for the active identities. -/
theorem c3_graph_invariants (t1 t2 : Table)
    (hnd : (activeEmailsOf t1).Nodup)
    (hself : (t2.drop 1).all histRowSelfFree = true) :
    (∀ a b : Cell, hasEdge (buildConnectionGraph t1 t2) a b = true ↔
        (t2.drop 1).any (histRowMatches (buildConnectionGraph t1 t2) a b) = true)
    ∧ (∀ a b : Cell, getEdgeCount (buildConnectionGraph t1 t2) a b
        = (t2.drop 1).countP (histRowMatches (buildConnectionGraph t1 t2) a b))
    ∧ (∀ a : Cell, hasEdge (buildConnectionGraph t1 t2) a a = false)
    ∧ parallelFree (buildConnectionGraph t1 t2).edges
    ∧ (∀ e : Cell, hasNode (buildConnectionGraph t1 t2) e = true ↔ e ∈ activeEmailsOf t1) := by
  have hg : buildConnectionGraph t1 t2
      = (t2.drop 1).foldl addHistoryRow ⟨(t1.drop 1).foldl addRosterRow [], []⟩ := rfl
  set g0 : CGraph := ⟨(t1.drop 1).foldl addRosterRow [], []⟩ with hg0
  have hpf0 : parallelFree g0.edges := List.Pairwise.nil
  rcases historyFold_edges (t2.drop 1) g0 hpf0 with ⟨fh, fe, fc, fp⟩
  have hcongr : ∀ a b row, histRowMatches ((t2.drop 1).foldl addHistoryRow g0) a b row
      = histRowMatches g0 a b row := fun a b row => histRowMatches_congr fh a b row
  have he0 : ∀ a b, hasEdge g0 a b = false := fun a b => rfl
  have hc0 : ∀ a b, getEdgeCount g0 a b = 0 := fun a b => rfl
  refine ⟨?_, ?_, ?_, by rw [hg]; exact fp, ?_⟩
  · intro a b
    rw [hg, fe a b, he0, Bool.false_or]
    constructor
    · intro h
      rcases List.any_eq_true.mp h with ⟨row, hm, hmt⟩
      exact List.any_eq_true.mpr ⟨row, hm, by rw [hcongr a b row]; exact hmt⟩
    · intro h
      rcases List.any_eq_true.mp h with ⟨row, hm, hmt⟩
      rw [hcongr a b row] at hmt
      exact List.any_eq_true.mpr ⟨row, hm, hmt⟩
  · intro a b
    rw [hg, fc a b, hc0, Nat.zero_add]
    apply List.countP_congr
    intro row _
    rw [hcongr a b row]
  · intro a
    rw [hg, fe a a, he0, Bool.false_or]
    rw [← Bool.not_eq_true]
    intro h
    rcases List.any_eq_true.mp h with ⟨row, hm, hmt⟩
    match row with
    | none => exact absurd hmt (by simp [histRowMatches])
    | some r =>
      have hsf := List.all_eq_true.mp hself (some r) hm
      unfold histRowMatches at hmt
      dsimp only at hmt
      simp only [Bool.and_eq_true, Bool.or_eq_true, beq_iff_eq] at hmt
      rcases hmt with ⟨⟨⟨⟨ht1, ht2⟩, _⟩, _⟩, hab⟩
      have heq : getCell r 0 = getCell r 1 := by
        rcases hab with ⟨h1, h2⟩ | ⟨h1, h2⟩
        · exact h1.trans h2.symm
        · exact h1.trans h2.symm
      unfold histRowSelfFree at hsf
      dsimp only at hsf
      rw [ht1, ht2, heq] at hsf
      simp at hsf
  · intro e
    rw [hasNode_iff_mem_keys]
    exact nodeKeys_build t1 t2 e

/-- C3 counterexample: the claim asserts the graph never contains a
self-loop, but a history row pairing an active identity with itself
produces one (graphology's default undirected graph allows self-loops
and the code filters nothing): with roster row `x` active and history
row `(x, x)`, the built graph has an edge from `x` to `x`. -/
theorem c3_self_loop_counterexample :
    hasEdge
      (buildConnectionGraph
        [some [Cell.str "email", Cell.str "active"], some [Cell.str "x", Cell.bool true]]
        [some [Cell.str "e1", Cell.str "e2"],
          some [Cell.str "x", Cell.str "x", Cell.str "2024-01-15", Cell.str "r"]])
      (Cell.str "x") (Cell.str "x") = true := by
  with_unfolding_all rfl

/-- Witness for the amended C3 on a concrete input with a repeated
meeting: the `a`-`b` edge exists and its count is 2. -/
theorem c3_graph_invariants_witness :
    ((activeEmailsOf
        [some [Cell.str "e"], some [Cell.str "a", Cell.bool true],
          some [Cell.str "b", Cell.bool true]]).Nodup
      ∧ ([some [Cell.str "h"],
          some [Cell.str "a", Cell.str "b", Cell.str "2024-01-15", Cell.str "r1"],
          some [Cell.str "b", Cell.str "a", Cell.str "2024-02-15", Cell.str "r2"]].drop 1).all
            histRowSelfFree = true)
    ∧ (∀ a : Cell, hasEdge (buildConnectionGraph
        [some [Cell.str "e"], some [Cell.str "a", Cell.bool true],
          some [Cell.str "b", Cell.bool true]]
        [some [Cell.str "h"],
          some [Cell.str "a", Cell.str "b", Cell.str "2024-01-15", Cell.str "r1"],
          some [Cell.str "b", Cell.str "a", Cell.str "2024-02-15", Cell.str "r2"]]) a a = false) :=
  ⟨⟨of_decide_eq_true (by with_unfolding_all rfl),
    of_decide_eq_true (by with_unfolding_all rfl)⟩,
   (c3_graph_invariants _ _
      (of_decide_eq_true (by with_unfolding_all rfl))
      (of_decide_eq_true (by with_unfolding_all rfl))).2.2.1⟩

/-! ### Shared facts about the assignment solver -/

/-- The indices used by a list of candidate pairs, in order. -/
def idxList (l : List IPair) : List Nat := l.flatMap (fun p => [p.i, p.j])

/-- Total cost of a partial matching. -/
def sumCosts (l : List IPair) : ℚ := (l.map IPair.cost).sum

/-- All identities of a pair list, in order. -/
def flatPairs (l : List (Cell × Cell)) : List Cell := l.flatMap (fun p => [p.1, p.2])

theorem range_drop (n m : Nat) : (List.range n).drop m = List.range' m (n - m) := by
  by_cases h : m ≤ n
  · have hsplit : List.range n = List.range' 0 m ++ List.range' m (n - m) := by
      rw [List.range_eq_range']
      have happ := List.range'_append_1 0 m (n - m)
      rw [Nat.zero_add] at happ
      have hnm : n - m + m = n := by omega
      rw [hnm] at happ
      exact happ.symm
    rw [hsplit]
    have hl : (List.range' 0 m).length = m := by simp
    calc (List.range' 0 m ++ List.range' m (n - m)).drop m
        = (List.range' 0 m ++ List.range' m (n - m)).drop (List.range' 0 m).length := by
          rw [hl]
      _ = List.range' m (n - m) := List.drop_left _ _
  · have h1 : (List.range n).drop m = [] := List.drop_eq_nil_of_le (by simp; omega)
    have h2 : n - m = 0 := by omega
    rw [h1, h2]
    rfl

theorem mem_drop_range {n m j : Nat} : j ∈ (List.range n).drop m ↔ m ≤ j ∧ j < n := by
  rw [range_drop, List.mem_range']
  constructor
  · rintro ⟨i, hi, rfl⟩
    omega
  · intro ⟨h1, h2⟩
    exact ⟨j - m, by omega, by omega⟩

theorem mem_possiblePairs {es : List Cell} {rows : List (Option (List ℚ))} {p : IPair} :
    p ∈ possiblePairs es rows ↔
      p.i < p.j ∧ p.j < es.length ∧ es.getD p.i Cell.null ≠ es.getD p.j Cell.null
        ∧ p.cost = mval rows p.i p.j := by
  unfold possiblePairs
  rw [List.mem_flatMap]
  constructor
  · rintro ⟨i, hi, hp⟩
    rw [List.mem_filterMap] at hp
    rcases hp with ⟨j, hj, hsome⟩
    rw [mem_drop_range] at hj
    by_cases hne : es.getD i Cell.null == es.getD j Cell.null
    · rw [if_pos hne] at hsome
      cases hsome
    · rw [if_neg hne] at hsome
      cases hsome
      have hin : i < es.length := List.mem_range.mp hi
      refine ⟨?_, ?_, ?_, rfl⟩
      · show i < j
        omega
      · show j < es.length
        omega
      · show es.getD i Cell.null ≠ es.getD j Cell.null
        simpa [beq_iff_eq] using hne
  · rintro ⟨hij, hj, hne, hc⟩
    refine ⟨p.i, List.mem_range.mpr (by omega), ?_⟩
    rw [List.mem_filterMap]
    refine ⟨p.j, mem_drop_range.mpr ⟨by omega, hj⟩, ?_⟩
    rw [if_neg (by simpa [beq_iff_eq] using hne), ← hc]

theorem mem_inner_pool {es : List Cell} {rows : List (Option (List ℚ))} {i : Nat} {x : IPair}
    (hx : x ∈ ((List.range es.length).drop (i + 1)).filterMap (fun j =>
      if es.getD i Cell.null == es.getD j Cell.null then none
      else some (⟨i, j, mval rows i j⟩ : IPair))) : x.i = i := by
  rw [List.mem_filterMap] at hx
  rcases hx with ⟨j, _, hsome⟩
  split at hsome
  · cases hsome
  · cases hsome
    rfl

theorem possiblePairs_nodup (es : List Cell) (rows : List (Option (List ℚ))) :
    (possiblePairs es rows).Nodup := by
  unfold possiblePairs
  rw [List.nodup_flatMap]
  constructor
  · intro i _
    apply List.Nodup.filterMap
    · intro a b x hx1 hx2
      have h1 : x.j = a := by
        rw [Option.mem_def] at hx1
        split at hx1
        · cases hx1
        · cases hx1
          rfl
      have h2 : x.j = b := by
        rw [Option.mem_def] at hx2
        split at hx2
        · cases hx2
        · cases hx2
          rfl
      exact h1.symm.trans h2
    · exact (List.nodup_range es.length).sublist (List.drop_sublist _ _)
  · apply List.Pairwise.imp ?_ (List.pairwise_lt_range es.length)
    intro i1 i2 hlt x hx1 hx2
    have e1 := mem_inner_pool hx1
    have e2 := mem_inner_pool hx2
    omega

theorem insSorted_perm (x : IPair) (l : List IPair) : (insSorted x l).Perm (x :: l) := by
  induction l with
  | nil => exact List.Perm.refl _
  | cons y ys ih =>
    unfold insSorted
    split
    · exact (List.Perm.cons y ih).trans (List.Perm.swap x y ys)
    · exact List.Perm.refl _

theorem sortPairs_perm (l : List IPair) : (sortPairs l).Perm l := by
  have key : ∀ (xs : List IPair) (acc : List IPair),
      (xs.foldl (fun a x => insSorted x a) acc).Perm (acc ++ xs) := by
    intro xs
    induction xs with
    | nil => intro acc; simp
    | cons x rest ih =>
      intro acc
      rw [List.foldl_cons]
      refine (ih (insSorted x acc)).trans ?_
      have h1 : (insSorted x acc ++ rest).Perm ((x :: acc) ++ rest) :=
        (insSorted_perm x acc).append_right rest
      refine h1.trans ?_
      rw [List.cons_append]
      exact (List.perm_middle).symm
  simpa using key l []

theorem sumCosts_append (l : List IPair) (p : IPair) :
    sumCosts (l ++ [p]) = sumCosts l + p.cost := by
  unfold sumCosts
  rw [List.map_append, List.sum_append]
  simp

theorem idxList_append (l : List IPair) (p : IPair) :
    idxList (l ++ [p]) = idxList l ++ [p.i, p.j] := by
  unfold idxList
  rw [List.flatMap_append]
  rfl

theorem contains_iff_mem_nat (l : List Nat) (x : Nat) : l.contains x = true ↔ x ∈ l := by
  show List.elem x l = true ↔ x ∈ l
  exact List.elem_iff

/-- The running best of the backtracking loop only improves: whatever
the loop returns has cost at most the incoming best's cost. -/
theorem btLoop_best_mono (target : Nat) : ∀ (ps cur : List IPair) (used : List Nat)
    (cost : ℚ) (m : List IPair) (c : ℚ),
    ∃ m2 c2, btLoop target ps cur used cost (some (m, c)) = some (m2, c2) ∧ c2 ≤ c := by
  intro ps
  induction ps with
  | nil => exact fun cur used cost m c => ⟨m, c, rfl, le_refl c⟩
  | cons p rest ih =>
    intro cur used cost m c
    rw [btLoop]
    by_cases hconf : (used.contains p.i || used.contains p.j) = true
    · rw [if_pos hconf]
      exact ih cur used cost m c
    · rw [if_neg hconf]
      by_cases hlen : ((cur ++ [p]).length == target) = true
      · rw [if_pos hlen]
        by_cases hlt : costLtBest (cost + p.cost) (some (m, c)) = true
        · rw [if_pos hlt]
          have hle : cost + p.cost ≤ c := le_of_lt (by simpa [costLtBest] using hlt)
          rcases ih cur used cost (cur ++ [p]) (cost + p.cost) with ⟨m2, c2, heq, hc2⟩
          exact ⟨m2, c2, heq, le_trans hc2 hle⟩
        · rw [if_neg hlt]
          exact ih cur used cost m c
      · rw [if_neg hlen]
        by_cases hbl : bestLeCost (some (m, c)) (cost + p.cost) = true
        · rw [if_pos hbl]
          exact ih cur used cost m c
        · rw [if_neg hbl]
          by_cases hcnt : rest.length < target - (cur ++ [p]).length
          · rw [if_pos hcnt]
            exact ih cur used cost m c
          · rw [if_neg hcnt]
            rcases ih (cur ++ [p]) (p.i :: p.j :: used) (cost + p.cost) m c with ⟨m1, c1, heq1, hc1⟩
            rw [heq1]
            rcases ih cur used cost m1 c1 with ⟨m2, c2, heq2, hc2⟩
            exact ⟨m2, c2, heq2, le_trans hc2 hc1⟩

/-- What a stored best matching always satisfies: right size, pairs
from the pool, disjoint indices, and the recorded cost is its total
cost. -/
def okBest (pool : List IPair) (target : Nat) : Option (List IPair × ℚ) → Prop
  | none => True
  | some (m, c) => m.length = target ∧ (∀ p ∈ m, p ∈ pool) ∧ (idxList m).Nodup ∧ c = sumCosts m

/-- Soundness of the backtracking loop: all invariants of the partial
state are preserved into any stored best. -/
theorem btLoop_sound (pool : List IPair) (target : Nat)
    (hshape : ∀ p ∈ pool, p.i < p.j) :
    ∀ (ps cur : List IPair) (used : List Nat) (cost : ℚ) (best : Option (List IPair × ℚ)),
    (∀ p ∈ ps, p ∈ pool) → (∀ p ∈ cur, p ∈ pool) → (idxList cur).Nodup →
    (∀ x, x ∈ used ↔ x ∈ idxList cur) → cost = sumCosts cur →
    okBest pool target best →
    okBest pool target (btLoop target ps cur used cost best) := by
  intro ps
  induction ps with
  | nil => intro cur used cost best _ _ _ _ _ hb; exact hb
  | cons p rest ih =>
    intro cur used cost best hps hcur hnd hused hcost hb
    rw [btLoop]
    have hprest : ∀ q ∈ rest, q ∈ pool := fun q hq => hps q (List.mem_cons_of_mem p hq)
    by_cases hconf : (used.contains p.i || used.contains p.j) = true
    · rw [if_pos hconf]
      exact ih cur used cost best hprest hcur hnd hused hcost hb
    · rw [if_neg hconf]
      have hpi : p.i ∉ idxList cur := by
        intro hmem
        have hc : used.contains p.i = true := by
          rw [contains_iff_mem_nat]
          exact (hused p.i).mpr hmem
        exact hconf (by rw [hc, Bool.true_or])
      have hpj : p.j ∉ idxList cur := by
        intro hmem
        have hc : used.contains p.j = true := by
          rw [contains_iff_mem_nat]
          exact (hused p.j).mpr hmem
        exact hconf (by rw [hc, Bool.or_true])
      have hppool : p ∈ pool := hps p (List.mem_cons_self p rest)
      have hij : p.i ≠ p.j := Nat.ne_of_lt (hshape p hppool)
      have hcur2 : ∀ q ∈ cur ++ [p], q ∈ pool := by
        intro q hq
        rcases List.mem_append.mp hq with h | h
        · exact hcur q h
        · rw [List.mem_singleton] at h
          subst h
          exact hppool
      have hnd2 : (idxList (cur ++ [p])).Nodup := by
        rw [idxList_append]
        apply List.Nodup.append hnd
        · exact List.nodup_cons.mpr ⟨by simpa using hij, List.nodup_singleton _⟩
        · intro x hx hx2
          rcases List.mem_cons.mp hx2 with rfl | hx3
          · exact hpi hx
          · rw [List.mem_singleton] at hx3
            subst hx3
            exact hpj hx
      have hused2 : ∀ x, x ∈ (p.i :: p.j :: used) ↔ x ∈ idxList (cur ++ [p]) := by
        intro x
        rw [idxList_append, List.mem_append]
        constructor
        · intro hx
          rcases List.mem_cons.mp hx with rfl | hx
          · exact Or.inr (by simp)
          · rcases List.mem_cons.mp hx with rfl | hx
            · exact Or.inr (by simp)
            · exact Or.inl ((hused x).mp hx)
        · rintro (hx | hx)
          · exact List.mem_cons_of_mem _ (List.mem_cons_of_mem _ ((hused x).mpr hx))
          · rcases List.mem_cons.mp hx with rfl | hx
            · exact List.mem_cons_self _ _
            · rw [List.mem_singleton] at hx
              subst hx
              exact List.mem_cons_of_mem _ (List.mem_cons_self _ _)
      have hcost2 : cost + p.cost = sumCosts (cur ++ [p]) := by
        rw [sumCosts_append, hcost]
      by_cases hlen : ((cur ++ [p]).length == target) = true
      · rw [if_pos hlen]
        by_cases hlt : costLtBest (cost + p.cost) best = true
        · rw [if_pos hlt]
          refine ih cur used cost _ hprest hcur hnd hused hcost ?_
          exact ⟨beq_iff_eq.mp hlen, hcur2, hnd2, hcost2⟩
        · rw [if_neg hlt]
          exact ih cur used cost best hprest hcur hnd hused hcost hb
      · rw [if_neg hlen]
        by_cases hbl : bestLeCost best (cost + p.cost) = true
        · rw [if_pos hbl]
          exact ih cur used cost best hprest hcur hnd hused hcost hb
        · rw [if_neg hbl]
          by_cases hcnt : rest.length < target - (cur ++ [p]).length
          · rw [if_pos hcnt]
            exact ih cur used cost best hprest hcur hnd hused hcost hb
          · rw [if_neg hcnt]
            have hinner := ih (cur ++ [p]) (p.i :: p.j :: used) (cost + p.cost) best
              hprest hcur2 hnd2 hused2 hcost2 hb
            exact ih cur used cost _ hprest hcur hnd hused hcost hinner

theorem btLoop_some (target : Nat) (ps cur : List IPair) (used : List Nat) (cost : ℚ)
    (m : List IPair) (c : ℚ) :
    (btLoop target ps cur used cost (some (m, c))).isSome := by
  rcases btLoop_best_mono target ps cur used cost m c with ⟨m2, c2, heq, _⟩
  rw [heq]
  rfl

theorem idxList_cons (p : IPair) (S : List IPair) :
    idxList (p :: S) = p.i :: p.j :: idxList S := rfl

/-- Completeness of the backtracking loop: if the remaining candidate
pool still contains a disjoint completion of the right size, the loop
ends with some stored matching. -/
theorem btLoop_complete (target : Nat) :
    ∀ (ps S cur : List IPair) (used : List Nat) (cost : ℚ) (best : Option (List IPair × ℚ)),
    S.Sublist ps → (idxList S).Nodup → (∀ x ∈ idxList S, x ∉ used) →
    S.length = target - cur.length → cur.length < target →
    (btLoop target ps cur used cost best).isSome := by
  intro ps
  induction ps with
  | nil =>
    intro S cur used cost best hS hnd hdisj hlen hcur
    have hS0 : S = [] := List.sublist_nil.mp hS
    subst hS0
    simp only [List.length_nil] at hlen
    omega
  | cons p rest ih =>
    intro S cur used cost best hS hnd hdisj hlen hcur
    rw [btLoop]
    cases hS with
    | cons _ hS2 =>
      exact ih S cur used cost _ hS2 hnd hdisj hlen hcur
    | cons₂ _ hS2 =>
      rename_i S2
      rw [idxList_cons] at hnd hdisj
      have hpi : p.i ∉ used := hdisj p.i (List.mem_cons_self _ _)
      have hpj : p.j ∉ used := hdisj p.j (List.mem_cons_of_mem _ (List.mem_cons_self _ _))
      have hci : used.contains p.i = false := by
        cases hc : used.contains p.i with
        | false => rfl
        | true => exact absurd ((contains_iff_mem_nat _ _).mp hc) hpi
      have hcj : used.contains p.j = false := by
        cases hc : used.contains p.j with
        | false => rfl
        | true => exact absurd ((contains_iff_mem_nat _ _).mp hc) hpj
      have hconf : (used.contains p.i || used.contains p.j) = false := by
        rw [hci, hcj]
        rfl
      rw [if_neg (fun h => by rw [hconf] at h; cases h)]
      have hSlen : (p :: S2).length = S2.length + 1 := rfl
      by_cases hlen2 : ((cur ++ [p]).length == target) = true
      · rw [if_pos hlen2]
        by_cases hlt : costLtBest (cost + p.cost) best = true
        · rw [if_pos hlt]
          exact btLoop_some target rest cur used cost _ _
        · rw [if_neg hlt]
          rcases best with _ | ⟨m0, c0⟩
          · exact absurd (rfl : costLtBest (cost + p.cost) none = true) hlt
          · exact btLoop_some target rest cur used cost _ _
      · rw [if_neg hlen2]
        have hclen : (cur ++ [p]).length = cur.length + 1 := by simp
        have hlen3 : (cur ++ [p]).length ≠ target := fun h => hlen2 (beq_iff_eq.mpr h)
        by_cases hbl : bestLeCost best (cost + p.cost) = true
        · rw [if_pos hbl]
          rcases best with _ | ⟨m0, c0⟩
          · exact absurd hbl (by simp [bestLeCost])
          · exact btLoop_some target rest cur used cost _ _
        · rw [if_neg hbl]
          have hS2len : S2.length ≤ rest.length := hS2.length_le
          have hcnt : ¬ (rest.length < target - (cur ++ [p]).length) := by
            rw [hclen]
            simp only [hSlen] at hlen
            omega
          rw [if_neg hcnt]
          have hres := ih S2 (cur ++ [p]) (p.i :: p.j :: used) (cost + p.cost) best hS2
            (List.nodup_cons.mp (List.nodup_cons.mp hnd).2).2
            ?_ ?_ ?_
          · rcases Option.isSome_iff_exists.mp hres with ⟨⟨m1, c1⟩, heq1⟩
            rw [heq1]
            exact btLoop_some target rest cur used cost _ _
          · intro x hx
            intro hmem
            rcases List.mem_cons.mp hmem with rfl | hmem
            · exact (List.nodup_cons.mp hnd).1 (List.mem_cons_of_mem _ hx)
            · rcases List.mem_cons.mp hmem with rfl | hmem
              · exact (List.nodup_cons.mp (List.nodup_cons.mp hnd).2).1 hx
              · exact hdisj x (List.mem_cons_of_mem _ (List.mem_cons_of_mem _ hx)) hmem
          · simp only [hSlen] at hlen
            rw [hclen]
            omega
          · rw [hclen]
            simp only [hSlen] at hlen
            omega

/-- Quality of the backtracking loop: if the remaining pool contains a
disjoint completion all of whose pair costs are nonpositive, and the
accumulated cost is nonpositive, the final stored matching has
nonpositive total cost (cost pruning cannot lose every such branch:
whenever it fires, the stored best is already at least as cheap). -/
theorem btLoop_quality (target : Nat) :
    ∀ (ps S cur : List IPair) (used : List Nat) (cost : ℚ) (best : Option (List IPair × ℚ)),
    S.Sublist ps → (idxList S).Nodup → (∀ x ∈ idxList S, x ∉ used) →
    S.length = target - cur.length → cur.length < target →
    (∀ p ∈ S, p.cost ≤ 0) → cost ≤ 0 →
    ∃ m c, btLoop target ps cur used cost best = some (m, c) ∧ c ≤ 0 := by
  intro ps
  induction ps with
  | nil =>
    intro S cur used cost best hS hnd hdisj hlen hcur hSc hc
    have hS0 : S = [] := List.sublist_nil.mp hS
    subst hS0
    simp only [List.length_nil] at hlen
    omega
  | cons p rest ih =>
    intro S cur used cost best hS hnd hdisj hlen hcur hSc hc
    rw [btLoop]
    cases hS with
    | cons _ hS2 =>
      exact ih S cur used cost _ hS2 hnd hdisj hlen hcur hSc hc
    | cons₂ _ hS2 =>
      rename_i S2
      rw [idxList_cons] at hnd hdisj
      have hpc : p.cost ≤ 0 := hSc p (List.mem_cons_self _ _)
      have hS2c : ∀ q ∈ S2, q.cost ≤ 0 := fun q hq => hSc q (List.mem_cons_of_mem _ hq)
      have hcost2 : cost + p.cost ≤ 0 := by linarith
      have hpi : p.i ∉ used := hdisj p.i (List.mem_cons_self _ _)
      have hpj : p.j ∉ used := hdisj p.j (List.mem_cons_of_mem _ (List.mem_cons_self _ _))
      have hci : used.contains p.i = false := by
        cases hcc : used.contains p.i with
        | false => rfl
        | true => exact absurd ((contains_iff_mem_nat _ _).mp hcc) hpi
      have hcj : used.contains p.j = false := by
        cases hcc : used.contains p.j with
        | false => rfl
        | true => exact absurd ((contains_iff_mem_nat _ _).mp hcc) hpj
      have hconf : (used.contains p.i || used.contains p.j) = false := by
        rw [hci, hcj]
        rfl
      rw [if_neg (fun h => by rw [hconf] at h; cases h)]
      have hSlen : (p :: S2).length = S2.length + 1 := rfl
      by_cases hlen2 : ((cur ++ [p]).length == target) = true
      · rw [if_pos hlen2]
        by_cases hlt : costLtBest (cost + p.cost) best = true
        · rw [if_pos hlt]
          rcases btLoop_best_mono target rest cur used cost (cur ++ [p]) (cost + p.cost)
            with ⟨m2, c2, heq, hle⟩
          exact ⟨m2, c2, heq, le_trans hle hcost2⟩
        · rw [if_neg hlt]
          rcases best with _ | ⟨m0, c0⟩
          · exact absurd (rfl : costLtBest (cost + p.cost) none = true) hlt
          · have hc0 : c0 ≤ cost + p.cost := by
              by_contra hgt
              exact hlt (by simpa [costLtBest] using lt_of_not_le hgt)
            rcases btLoop_best_mono target rest cur used cost m0 c0 with ⟨m2, c2, heq, hle⟩
            exact ⟨m2, c2, heq, le_trans hle (le_trans hc0 hcost2)⟩
      · rw [if_neg hlen2]
        have hclen : (cur ++ [p]).length = cur.length + 1 := by simp
        by_cases hbl : bestLeCost best (cost + p.cost) = true
        · rw [if_pos hbl]
          rcases best with _ | ⟨m0, c0⟩
          · exact absurd hbl (by simp [bestLeCost])
          · have hc0 : c0 ≤ cost + p.cost := by simpa [bestLeCost] using hbl
            rcases btLoop_best_mono target rest cur used cost m0 c0 with ⟨m2, c2, heq, hle⟩
            exact ⟨m2, c2, heq, le_trans hle (le_trans hc0 hcost2)⟩
        · rw [if_neg hbl]
          have hS2len : S2.length ≤ rest.length := hS2.length_le
          have hcnt : ¬ (rest.length < target - (cur ++ [p]).length) := by
            rw [hclen]
            simp only [hSlen] at hlen
            omega
          rw [if_neg hcnt]
          have hinner := ih S2 (cur ++ [p]) (p.i :: p.j :: used) (cost + p.cost) best hS2
            (List.nodup_cons.mp (List.nodup_cons.mp hnd).2).2
            ?_ ?_ ?_ hS2c hcost2
          · rcases hinner with ⟨m1, c1, heq1, hc1⟩
            rw [heq1]
            rcases btLoop_best_mono target rest cur used cost m1 c1 with ⟨m2, c2, heq2, hle⟩
            exact ⟨m2, c2, heq2, le_trans hle hc1⟩
          · intro x hx hmem
            rcases List.mem_cons.mp hmem with rfl | hmem
            · exact (List.nodup_cons.mp hnd).1 (List.mem_cons_of_mem _ hx)
            · rcases List.mem_cons.mp hmem with rfl | hmem
              · exact (List.nodup_cons.mp (List.nodup_cons.mp hnd).2).1 hx
              · exact hdisj x (List.mem_cons_of_mem _ (List.mem_cons_of_mem _ hx)) hmem
          · simp only [hSlen] at hlen
            rw [hclen]
            omega
          · rw [hclen]
            simp only [hSlen] at hlen
            have hne : (cur ++ [p]).length ≠ target := fun h => hlen2 (beq_iff_eq.mpr h)
            rw [hclen] at hne
            omega

theorem flatPairs_map_toPair (es : List Cell) (m : List IPair) :
    flatPairs (m.map (fun p => (es.getD p.i Cell.null, es.getD p.j Cell.null)))
      = (idxList m).map (fun k => es.getD k Cell.null) := by
  induction m with
  | nil => rfl
  | cons p rest ih =>
    simp only [List.map_cons, flatPairs, List.flatMap_cons, idxList] at *
    rw [ih]
    rfl

theorem map_getD_range (es : List Cell) (d : Cell) :
    (List.range es.length).map (fun i => es.getD i d) = es := by
  induction es with
  | nil => rfl
  | cons a rest ih =>
    rw [List.length_cons, List.range_succ_eq_map, List.map_cons, List.map_map]
    have h2 : ((fun i => (a :: rest).getD i d) ∘ Nat.succ) = (fun i => rest.getD i d) := by
      funext i
      rfl
    rw [h2, ih]
    rfl

theorem matching_count_le (es : List Cell) (m : List IPair)
    (hb : ∀ x ∈ idxList m, x < es.length)
    (hnd : (idxList m).Nodup) (e : Cell) :
    (flatPairs (m.map (fun p => (es.getD p.i Cell.null, es.getD p.j Cell.null)))).count e
      ≤ es.count e := by
  rw [flatPairs_map_toPair]
  rw [List.count_eq_countP, List.countP_map]
  have hsub : (idxList m).Subperm (List.range es.length) :=
    hnd.subperm (fun x hx => List.mem_range.mpr (hb x hx))
  calc (idxList m).countP ((fun x => x == e) ∘ fun k => es.getD k Cell.null)
      ≤ (List.range es.length).countP ((fun x => x == e) ∘ fun k => es.getD k Cell.null) :=
        hsub.countP_le _
    _ = ((List.range es.length).map (fun k => es.getD k Cell.null)).countP (fun x => x == e) :=
        (List.countP_map _ _ _).symm
    _ = es.count e := by rw [map_getD_range, List.count_eq_countP]

theorem selectGreedyPair_spec {n : Nat} {rows : List (Option (List ℚ))}
    {sorted : List IPair} {used : List Nat} {p : IPair}
    (h : selectGreedyPair n rows sorted used = some p) :
    p ∈ sorted ∧ used.contains p.i = false ∧ used.contains p.j = false := by
  have key : ∀ (l : List IPair) (acc : Option IPair × Option ℚ),
      (∀ q ∈ l, q ∈ sorted) →
      (∀ q, acc.1 = some q → q ∈ sorted ∧ used.contains q.i = false ∧ used.contains q.j = false) →
      ∀ q, (l.foldl
        (fun (acc : Option IPair × Option ℚ) p =>
          if used.contains p.i || used.contains p.j then acc
          else
            let testUsed := p.j :: p.i :: used
            let remaining := (List.range n).filter (fun k => !(testUsed.contains k))
            let allPenalties := allPenaltiesAmong rows remaining
            let score :=
              if 2 ≤ remaining.length && allPenalties then
                p.cost + ALGORITHM_CONFIG.HARD_CONSTRAINT_PENALTY * (0.5 : ℚ)
              else p.cost
            if scoreLtBest score acc.2 then (some p, some score) else acc) acc).1 = some q →
      q ∈ sorted ∧ used.contains q.i = false ∧ used.contains q.j = false := by
    intro l
    induction l with
    | nil => intro acc _ hacc q hq; exact hacc q hq
    | cons x rest ih =>
      intro acc hl hacc q hq
      rw [List.foldl_cons] at hq
      refine ih _ (fun r hr => hl r (List.mem_cons_of_mem x hr)) ?_ q hq
      intro r hr
      by_cases hconf : (used.contains x.i || used.contains x.j) = true
      · rw [if_pos hconf] at hr
        exact hacc r hr
      · rw [if_neg hconf] at hr
        rcases Bool.or_eq_false_iff.mp (Bool.not_eq_true _ |>.mp hconf) with ⟨hci, hcj⟩
        dsimp only at hr
        split at hr <;> split at hr
        · cases hr
          exact ⟨hl x (List.mem_cons_self x rest), hci, hcj⟩
        · exact hacc r hr
        · cases hr
          exact ⟨hl x (List.mem_cons_self x rest), hci, hcj⟩
        · exact hacc r hr
  exact key sorted (none, none) (fun q hq => hq) (fun q hq => by cases hq) p h

theorem greedyLoop_inv (n : Nat) (rows : List (Option (List ℚ))) (sorted : List IPair)
    (hshape : ∀ p ∈ sorted, p.i < p.j) :
    ∀ (fuel : Nat) (pairs : List IPair) (used : List Nat),
    (∀ p ∈ pairs, p ∈ sorted) → (idxList pairs).Nodup →
    (∀ x, x ∈ used ↔ x ∈ idxList pairs) →
    (∀ p ∈ greedyLoop n rows sorted fuel pairs used, p ∈ sorted)
    ∧ (idxList (greedyLoop n rows sorted fuel pairs used)).Nodup := by
  intro fuel
  induction fuel with
  | zero => exact fun pairs used hmem hnd _ => ⟨hmem, hnd⟩
  | succ f ih =>
    intro pairs used hmem hnd hused
    rw [greedyLoop]
    rcases hsel : selectGreedyPair n rows sorted used with _ | p
    · exact ⟨hmem, hnd⟩
    · rcases selectGreedyPair_spec hsel with ⟨hp, hci, hcj⟩
      have hpi : p.i ∉ idxList pairs := by
        intro hx
        have : used.contains p.i = true := (contains_iff_mem_nat _ _).mpr ((hused p.i).mpr hx)
        rw [this] at hci
        cases hci
      have hpj : p.j ∉ idxList pairs := by
        intro hx
        have : used.contains p.j = true := (contains_iff_mem_nat _ _).mpr ((hused p.j).mpr hx)
        rw [this] at hcj
        cases hcj
      have hij : p.i ≠ p.j := Nat.ne_of_lt (hshape p hp)
      apply ih (pairs ++ [p]) (p.j :: p.i :: used)
      · intro q hq
        rcases List.mem_append.mp hq with h | h
        · exact hmem q h
        · rw [List.mem_singleton] at h
          subst h
          exact hp
      · rw [idxList_append]
        apply List.Nodup.append hnd
        · exact List.nodup_cons.mpr ⟨by simpa using hij, List.nodup_singleton _⟩
        · intro x hx hx2
          rcases List.mem_cons.mp hx2 with rfl | hx3
          · exact hpi hx
          · rw [List.mem_singleton] at hx3
            subst hx3
            exact hpj hx
      · intro x
        rw [idxList_append, List.mem_append]
        constructor
        · intro hx
          rcases List.mem_cons.mp hx with rfl | hx
          · exact Or.inr (by simp)
          · rcases List.mem_cons.mp hx with rfl | hx
            · exact Or.inr (by simp)
            · exact Or.inl ((hused x).mp hx)
        · rintro (hx | hx)
          · exact List.mem_cons_of_mem _ (List.mem_cons_of_mem _ ((hused x).mpr hx))
          · rcases List.mem_cons.mp hx with rfl | hx
            · exact List.mem_cons_of_mem _ (List.mem_cons_self _ _)
            · rw [List.mem_singleton] at hx
              subst hx
              exact List.mem_cons_self _ _

theorem mem_idxList {m : List IPair} {x : Nat} :
    x ∈ idxList m ↔ ∃ p ∈ m, x = p.i ∨ x = p.j := by
  unfold idxList
  rw [List.mem_flatMap]
  constructor
  · rintro ⟨p, hp, hx⟩
    rcases List.mem_cons.mp hx with rfl | hx
    · exact ⟨p, hp, Or.inl rfl⟩
    · rw [List.mem_singleton] at hx
      exact ⟨p, hp, Or.inr hx⟩
  · rintro ⟨p, hp, rfl | rfl⟩
    · exact ⟨p, hp, List.mem_cons_self _ _⟩
    · exact ⟨p, hp, List.mem_cons_of_mem _ (List.mem_cons_self _ _)⟩

/-! ### Claim C7: multiplicity invariants of the returned pair list -/

/-- C7: for every participant list and cost matrix, the pair list of
`hungarianMatching` (either solver branch) never pairs an identity with
itself, and no identity occurs in the output more often than it occurs
in the participant list — so an identity in two pairs must occur twice
in the list (only the duplicated "twice" participant of an odd round),
and every other identity appears at most once. -/
theorem c7_no_self_pairs_and_multiplicity (es : List Cell) (cm : MatrixArg) :
    (∀ pr ∈ hungarianMatching es cm, pr.1 ≠ pr.2)
    ∧ (∀ e : Cell, (flatPairs (hungarianMatching es cm)).count e ≤ es.count e) := by
  rcases cm with _ | rows
  · exact ⟨fun pr hpr => absurd hpr (List.not_mem_nil pr), fun e => by
      simp [hungarianMatching, flatPairs]⟩
  · have hmain : ∀ m : List IPair,
        (∀ p ∈ m, p ∈ sortPairs (possiblePairs es rows)) → (idxList m).Nodup →
        (∀ pr ∈ m.map (fun p => (es.getD p.i Cell.null, es.getD p.j Cell.null)), pr.1 ≠ pr.2)
        ∧ (∀ e : Cell,
            (flatPairs (m.map (fun p => (es.getD p.i Cell.null, es.getD p.j Cell.null)))).count e
              ≤ es.count e) := by
      intro m hmem hnd
      have hpool : ∀ p ∈ m, p ∈ possiblePairs es rows := fun p hp =>
        ((sortPairs_perm (possiblePairs es rows)).mem_iff).mp (hmem p hp)
      constructor
      · intro pr hpr
        rcases List.mem_map.mp hpr with ⟨p, hp, rfl⟩
        exact (mem_possiblePairs.mp (hpool p hp)).2.2.1
      · intro e
        apply matching_count_le
        · intro x hx
          rcases mem_idxList.mp hx with ⟨p, hp, rfl | rfl⟩
          · rcases mem_possiblePairs.mp (hpool p hp) with ⟨h1, h2, _, _⟩
            omega
          · exact (mem_possiblePairs.mp (hpool p hp)).2.1
        · exact hnd
    have hempty : (∀ pr ∈ ([] : List (Cell × Cell)), pr.1 ≠ pr.2)
        ∧ (∀ e : Cell, (flatPairs ([] : List (Cell × Cell))).count e ≤ es.count e) :=
      ⟨fun pr hpr => absurd hpr (List.not_mem_nil pr), fun e => by simp [flatPairs]⟩
    show (∀ pr ∈ hungarianMatching es (some rows), pr.1 ≠ pr.2) ∧ _
    rw [hungarianMatching]
    by_cases h0 : (rows.length == 0) = true
    · rw [if_pos h0]
      exact hempty
    · rw [if_neg h0]
      by_cases h1 : (rows.any fun r => (r.getD []).isEmpty) = true
      · rw [if_pos h1]
        exact hempty
      · rw [if_neg h1]
        have hshape : ∀ p ∈ sortPairs (possiblePairs es rows), p.i < p.j := fun p hp =>
          (mem_possiblePairs.mp (((sortPairs_perm _).mem_iff).mp hp)).1
        by_cases hg : es.length > 12
        · rw [if_pos hg]
          unfold greedyWithLookahead
          rcases greedyLoop_inv es.length rows (sortPairs (possiblePairs es rows)) hshape
            (es.length / 2) [] [] (fun p hp => absurd hp (List.not_mem_nil p))
            List.nodup_nil (fun x => Iff.rfl) with ⟨hmem, hnd⟩
          exact hmain _ hmem hnd
        · rw [if_neg hg]
          rcases hbt : backtrackTop (es.length / 2) (sortPairs (possiblePairs es rows))
            with _ | ⟨m, c⟩
          · exact hempty
          · have hok : okBest (sortPairs (possiblePairs es rows)) (es.length / 2)
                (backtrackTop (es.length / 2) (sortPairs (possiblePairs es rows))) := by
              unfold backtrackTop
              by_cases ht0 : (es.length / 2 == 0) = true
              · rw [if_pos ht0]
                exact ⟨by simpa using (beq_iff_eq.mp ht0).symm,
                  fun p hp => absurd hp (List.not_mem_nil p), List.nodup_nil, rfl⟩
              · rw [if_neg ht0]
                by_cases htl : (sortPairs (possiblePairs es rows)).length < es.length / 2
                · rw [if_pos htl]
                  trivial
                · rw [if_neg htl]
                  exact btLoop_sound _ _ hshape _ [] [] 0 none (fun p hp => hp)
                    (fun p hp => absurd hp (List.not_mem_nil p)) List.nodup_nil
                    (fun x => Iff.rfl) rfl trivial
            rw [hbt] at hok
            rcases hok with ⟨_, hmem, hnd, _⟩
            exact hmain m hmem hnd

/-! ### Groundwork for claims C4 and C1 -/

theorem addRosterRow_nodup (nodes : List (Cell × NodeAttrs)) (row : Row)
    (h : (nodes.map Prod.fst).Nodup) : ((addRosterRow nodes row).map Prod.fst).Nodup := by
  match row with
  | none => exact h
  | some r =>
    unfold addRosterRow
    dsimp only
    cases ht : (getCell r 0).truthy with
    | false => simpa [ht] using h
    | true =>
      cases ha : isActiveCell (getCell r 1) with
      | false => simpa [ht, ha] using h
      | true =>
        cases hdup : nodes.any (fun n => n.1 == getCell r 0) with
        | true => simpa [ht, ha, hdup] using h
        | false =>
          simp only [ht, ha, hdup, Bool.not_true, if_false, if_true, Bool.false_eq_true,
            ite_true, ite_false, List.map_append, List.map_cons, List.map_nil]
          apply List.Nodup.append h (List.nodup_singleton _)
          intro x hx hx2
          rw [List.mem_singleton] at hx2
          subst hx2
          rcases List.mem_map.mp hx with ⟨q, hq, hq2⟩
          have : nodes.any (fun n => n.1 == getCell r 0) = true :=
            List.any_eq_true.mpr ⟨q, hq, beq_iff_eq.mpr hq2⟩
          rw [this] at hdup
          cases hdup

theorem nodeKeys_build_nodup (t1 t2 : Table) :
    (nodeKeys (buildConnectionGraph t1 t2)).Nodup := by
  have h0 : ((buildConnectionGraph t1 t2).nodes.map Prod.fst).Nodup := by
    rw [buildConnectionGraph]
    rw [keys_historyFold]
    have : ∀ (rows : List Row) (init : List (Cell × NodeAttrs)),
        (init.map Prod.fst).Nodup → ((rows.foldl addRosterRow init).map Prod.fst).Nodup := by
      intro rows
      induction rows with
      | nil => exact fun init h => h
      | cons row rest ih =>
        intro init h
        rw [List.foldl_cons]
        exact ih _ (addRosterRow_nodup init row h)
    exact this (t1.drop 1) [] List.nodup_nil
  exact h0

/-- Consecutive chunking of an index list into unordered pairs. -/
def chunk2 : List Nat → List (Nat × Nat)
  | a :: b :: rest => (a, b) :: chunk2 rest
  | _ => []

theorem chunk2_flat : ∀ (l : List Nat), l.length % 2 = 0 →
    (chunk2 l).flatMap (fun pr => [pr.1, pr.2]) = l
  | [], _ => rfl
  | [_], h => by simp at h
  | a :: b :: rest, h => by
    have hr : rest.length % 2 = 0 := by
      simp only [List.length_cons] at h
      omega
    show a :: b :: (chunk2 rest).flatMap (fun pr => [pr.1, pr.2]) = a :: b :: rest
    rw [chunk2_flat rest hr]

theorem chunk2_range' : ∀ (m s : Nat), ∀ pr ∈ chunk2 (List.range' s m),
    pr.2 = pr.1 + 1 ∧ s ≤ pr.1 ∧ pr.1 + 1 < s + m := by
  intro m
  induction m using Nat.strong_induction_on with
  | _ m ih =>
    intro s pr hpr
    match m with
    | 0 => cases hpr
    | 1 => cases hpr
    | m2 + 2 =>
      have hrg : List.range' s (m2 + 2) = s :: (s + 1) :: List.range' (s + 2) m2 := rfl
      rw [hrg] at hpr
      rw [show chunk2 (s :: (s + 1) :: List.range' (s + 2) m2)
        = (s, s + 1) :: chunk2 (List.range' (s + 2) m2) from rfl] at hpr
      rcases List.mem_cons.mp hpr with rfl | hpr2
      · exact ⟨rfl, le_refl s, by omega⟩
      · rcases ih m2 (by omega) (s + 2) pr hpr2 with ⟨h1, h2, h3⟩
        exact ⟨h1, by omega, by omega⟩

theorem chunk2_length : ∀ (l : List Nat), l.length % 2 = 0 →
    (chunk2 l).length = l.length / 2
  | [], _ => rfl
  | [_], h => by simp at h
  | a :: b :: rest, h => by
    have hr : rest.length % 2 = 0 := by
      simp only [List.length_cons] at h
      omega
    show (chunk2 rest).length + 1 = (rest.length + 1 + 1) / 2
    rw [chunk2_length rest hr]
    omega

theorem getD_mem {l : List Cell} {i : Nat} (h : i < l.length) (d : Cell) :
    l.getD i d ∈ l := by
  rw [List.getD_eq_getElem l d h]
  exact List.getElem_mem h

theorem pairs_nodup_of_flat {raw : List (Nat × Nat)}
    (h : (raw.flatMap (fun pr => [pr.1, pr.2])).Nodup) : raw.Nodup := by
  induction raw with
  | nil => exact List.nodup_nil
  | cons pr rest ih =>
    rw [List.flatMap_cons] at h
    have h2 : (rest.flatMap (fun pr => [pr.1, pr.2])).Nodup :=
      (List.nodup_append.mp h).2.1
    refine List.nodup_cons.mpr ⟨?_, ih h2⟩
    intro hmem
    have hfst : pr.1 ∈ rest.flatMap (fun pr => [pr.1, pr.2]) :=
      List.mem_flatMap.mpr ⟨pr, hmem, List.mem_cons_self _ _⟩
    have := (List.nodup_append.mp h).2.2
    exact this (List.mem_cons_self _ _) hfst

/-- From a concrete disjoint system of index pairs, produce a sublist
of the sorted pool that completes an empty matching. -/
theorem sublist_completion_of_raw (es : List Cell) (rows : List (Option (List ℚ)))
    (raw : List (Nat × Nat))
    (hflat : (raw.flatMap (fun pr => [pr.1, pr.2])).Nodup)
    (hshape : ∀ pr ∈ raw, pr.1 < pr.2 ∧ pr.2 < es.length
      ∧ es.getD pr.1 Cell.null ≠ es.getD pr.2 Cell.null) :
    ∃ S : List IPair, S.Sublist (sortPairs (possiblePairs es rows))
      ∧ (idxList S).Nodup
      ∧ S.length = raw.length
      ∧ (∀ p ∈ S, ∃ pr ∈ raw, p.i = pr.1 ∧ p.j = pr.2 ∧ p.cost = mval rows pr.1 pr.2) := by
  have hperm := sortPairs_perm (possiblePairs es rows)
  set SIP : List IPair := raw.map (fun pr => ⟨pr.1, pr.2, mval rows pr.1 pr.2⟩) with hSIP
  have hmemSIP : ∀ p ∈ SIP, p ∈ possiblePairs es rows := by
    intro p hp
    rcases List.mem_map.mp hp with ⟨pr, hpr, rfl⟩
    rcases hshape pr hpr with ⟨h1, h2, h3⟩
    exact mem_possiblePairs.mpr ⟨h1, h2, h3, rfl⟩
  have hrawnd : raw.Nodup := pairs_nodup_of_flat hflat
  have hinj : Function.Injective (fun pr : Nat × Nat => (⟨pr.1, pr.2, mval rows pr.1 pr.2⟩ : IPair)) := by
    intro x y h
    have h1 : x.1 = y.1 := congrArg IPair.i h
    have h2 : x.2 = y.2 := congrArg IPair.j h
    exact Prod.ext h1 h2
  have hSIPnd : SIP.Nodup := hrawnd.map hinj
  have hsortnd : (sortPairs (possiblePairs es rows)).Nodup :=
    (hperm.nodup_iff).mpr (possiblePairs_nodup es rows)
  refine ⟨(sortPairs (possiblePairs es rows)).filter (fun p => decide (p ∈ SIP)), ?_, ?_, ?_, ?_⟩
  · exact List.filter_sublist _
  case refine_2 =>
    have hSperm : ((sortPairs (possiblePairs es rows)).filter
        (fun p => decide (p ∈ SIP))).Perm SIP := by
      rw [List.perm_ext_iff_of_nodup (hsortnd.filter _) hSIPnd]
      intro a
      rw [List.mem_filter, decide_eq_true_eq]
      constructor
      · exact fun h => h.2
      · intro h
        exact ⟨hperm.mem_iff.mpr (hmemSIP a h), h⟩
    have hidx : (idxList ((sortPairs (possiblePairs es rows)).filter
        (fun p => decide (p ∈ SIP)))).Perm (idxList SIP) :=
      hSperm.flatMap_right _
    rw [hidx.nodup_iff]
    have : idxList SIP = raw.flatMap (fun pr => [pr.1, pr.2]) := by
      rw [hSIP]
      unfold idxList
      rw [List.flatMap_map]
    rw [this]
    exact hflat
  case refine_3 =>
    have hSperm : ((sortPairs (possiblePairs es rows)).filter
        (fun p => decide (p ∈ SIP))).Perm SIP := by
      rw [List.perm_ext_iff_of_nodup (hsortnd.filter _) hSIPnd]
      intro a
      rw [List.mem_filter, decide_eq_true_eq]
      constructor
      · exact fun h => h.2
      · intro h
        exact ⟨hperm.mem_iff.mpr (hmemSIP a h), h⟩
    rw [hSperm.length_eq, hSIP, List.length_map]
  case refine_4 =>
    intro p hp
    have hmem : p ∈ SIP := by
      rcases List.mem_filter.mp hp with ⟨_, h2⟩
      exact decide_eq_true_eq.mp h2
    rcases List.mem_map.mp hmem with ⟨pr, hpr, rfl⟩
    exact ⟨pr, hpr, rfl, rfl, rfl⟩

/-- If a disjoint system of `target` candidate index pairs exists, the
exact solver ends with a stored matching satisfying all invariants. -/
theorem backtrackTop_finds (es : List Cell) (rows : List (Option (List ℚ)))
    (raw : List (Nat × Nat)) (target : Nat)
    (hflat : (raw.flatMap (fun pr => [pr.1, pr.2])).Nodup)
    (hshape : ∀ pr ∈ raw, pr.1 < pr.2 ∧ pr.2 < es.length
      ∧ es.getD pr.1 Cell.null ≠ es.getD pr.2 Cell.null)
    (hlen : raw.length = target) (htpos : 0 < target) :
    ∃ m c, backtrackTop target (sortPairs (possiblePairs es rows)) = some (m, c)
      ∧ m.length = target ∧ (∀ p ∈ m, p ∈ possiblePairs es rows)
      ∧ (idxList m).Nodup ∧ c = sumCosts m := by
  rcases sublist_completion_of_raw es rows raw hflat hshape with ⟨S, hsub, hnd, hSlen, _⟩
  have hperm := sortPairs_perm (possiblePairs es rows)
  have hshape2 : ∀ p ∈ sortPairs (possiblePairs es rows), p.i < p.j := fun p hp =>
    (mem_possiblePairs.mp (hperm.mem_iff.mp hp)).1
  have hcomplete := btLoop_complete target (sortPairs (possiblePairs es rows)) S [] [] 0 none
    hsub hnd (fun x _ hx => absurd hx (List.not_mem_nil x)) (by simpa [hlen] using hSlen)
    (by simpa using htpos)
  have hsound := btLoop_sound (sortPairs (possiblePairs es rows)) target hshape2
    (sortPairs (possiblePairs es rows)) [] [] 0 none (fun p hp => hp)
    (fun p hp => absurd hp (List.not_mem_nil p)) List.nodup_nil (fun x => Iff.rfl) rfl trivial
  unfold backtrackTop
  rw [if_neg (by simpa using Nat.ne_of_gt htpos)]
  have hlenS : ¬ (sortPairs (possiblePairs es rows)).length < target := by
    have := hsub.length_le
    omega
  rw [if_neg hlenS]
  rcases hbt : btLoop target (sortPairs (possiblePairs es rows)) [] [] 0 none with _ | ⟨m, c⟩
  · rw [hbt] at hcomplete
    cases hcomplete
  · rw [hbt] at hsound
    rcases hsound with ⟨h1, h2, h3, h4⟩
    exact ⟨m, c, rfl, h1, fun p hp => hperm.mem_iff.mp (h2 p hp), h3, h4⟩

/-- Quality version: if moreover every pair of the given system has
nonpositive matrix cost, the stored matching's total cost is
nonpositive. -/
theorem backtrackTop_quality (es : List Cell) (rows : List (Option (List ℚ)))
    (raw : List (Nat × Nat)) (target : Nat)
    (hflat : (raw.flatMap (fun pr => [pr.1, pr.2])).Nodup)
    (hshape : ∀ pr ∈ raw, pr.1 < pr.2 ∧ pr.2 < es.length
      ∧ es.getD pr.1 Cell.null ≠ es.getD pr.2 Cell.null)
    (hcosts : ∀ pr ∈ raw, mval rows pr.1 pr.2 ≤ 0)
    (hlen : raw.length = target) (htpos : 0 < target) :
    ∃ m c, backtrackTop target (sortPairs (possiblePairs es rows)) = some (m, c)
      ∧ m.length = target ∧ (∀ p ∈ m, p ∈ possiblePairs es rows)
      ∧ (idxList m).Nodup ∧ c = sumCosts m ∧ c ≤ 0 := by
  rcases sublist_completion_of_raw es rows raw hflat hshape with ⟨S, hsub, hnd, hSlen, hSmem⟩
  have hperm := sortPairs_perm (possiblePairs es rows)
  have hshape2 : ∀ p ∈ sortPairs (possiblePairs es rows), p.i < p.j := fun p hp =>
    (mem_possiblePairs.mp (hperm.mem_iff.mp hp)).1
  have hScost : ∀ p ∈ S, p.cost ≤ 0 := by
    intro p hp
    rcases hSmem p hp with ⟨pr, hpr, _, _, hc⟩
    rw [hc]
    exact hcosts pr hpr
  have hquality := btLoop_quality target (sortPairs (possiblePairs es rows)) S [] [] 0 none
    hsub hnd (fun x _ hx => absurd hx (List.not_mem_nil x)) (by simpa [hlen] using hSlen)
    (by simpa using htpos) hScost (le_refl 0)
  have hsound := btLoop_sound (sortPairs (possiblePairs es rows)) target hshape2
    (sortPairs (possiblePairs es rows)) [] [] 0 none (fun p hp => hp)
    (fun p hp => absurd hp (List.not_mem_nil p)) List.nodup_nil (fun x => Iff.rfl) rfl trivial
  unfold backtrackTop
  rw [if_neg (by simpa using Nat.ne_of_gt htpos)]
  have hlenS : ¬ (sortPairs (possiblePairs es rows)).length < target := by
    have := hsub.length_le
    omega
  rw [if_neg hlenS]
  rcases hquality with ⟨m, c, hbt, hc0⟩
  rw [hbt] at hsound
  rcases hsound with ⟨h1, h2, h3, h4⟩
  exact ⟨m, c, hbt, h1, fun p hp => hperm.mem_iff.mp (h2 p hp), h3, h4, hc0⟩

theorem idxList_length (m : List IPair) : (idxList m).length = 2 * m.length := by
  induction m with
  | nil => rfl
  | cons p rest ih =>
    rw [idxList] at *
    rw [List.flatMap_cons, List.length_append, ih, List.length_cons]
    simp
    omega

theorem nodup_getD_ne {keys : List Cell} (hnd : keys.Nodup) {i j : Nat}
    (hi : i < keys.length) (hj : j < keys.length) (hij : i ≠ j) :
    keys.getD i Cell.null ≠ keys.getD j Cell.null := by
  rw [List.getD_eq_getElem keys Cell.null hi, List.getD_eq_getElem keys Cell.null hj]
  intro h
  have := List.Nodup.get_inj_iff hnd (i := ⟨i, hi⟩) (j := ⟨j, hj⟩)
  rw [List.get_eq_getElem, List.get_eq_getElem] at this
  exact hij (congrArg Fin.val (this.mp h))

theorem getD_append_lt (keys tail : List Cell) {i : Nat} (hi : i < keys.length) :
    (keys ++ tail).getD i Cell.null = keys.getD i Cell.null := by
  rw [List.getD_eq_getElem (keys ++ tail) Cell.null (by rw [List.length_append]; omega),
    List.getD_eq_getElem keys Cell.null hi]
  exact List.getElem_append_left hi

theorem getD_append_self (keys : List Cell) (t : Cell) :
    (keys ++ [t]).getD keys.length Cell.null = t := by
  rw [List.getD_eq_getElem (keys ++ [t]) Cell.null (by simp)]
  rw [List.getElem_append_right (le_refl keys.length)]
  simp

theorem flatPairs_perm (es : List Cell) (m : List IPair)
    (hb : ∀ x ∈ idxList m, x < es.length)
    (hnd : (idxList m).Nodup)
    (hlen : (idxList m).length = es.length) :
    (flatPairs (m.map (fun p => (es.getD p.i Cell.null, es.getD p.j Cell.null)))).Perm es := by
  have hsub : (idxList m).Subperm (List.range es.length) :=
    hnd.subperm (fun x hx => List.mem_range.mpr (hb x hx))
  have hperm : (idxList m).Perm (List.range es.length) :=
    hsub.perm_of_length_le (by rw [List.length_range, hlen])
  rw [flatPairs_map_toPair]
  have h2 := hperm.map (fun k => es.getD k Cell.null)
  rw [map_getD_range] at h2
  exact h2

/-- For an odd population of distinct identities extended by one
duplicate, a disjoint system of candidate pairs covering all matrix
indices exists: the duplicate is simply never paired with its
original. -/
theorem exists_raw_system (keys : List Cell) (t : Cell)
    (hnd : keys.Nodup) (ht : t ∈ keys)
    (hodd : keys.length % 2 = 1) (h3 : 3 ≤ keys.length) :
    ∃ raw : List (Nat × Nat),
      (raw.flatMap (fun pr => [pr.1, pr.2])).Nodup
      ∧ (∀ pr ∈ raw, pr.1 < pr.2 ∧ pr.2 < (keys ++ [t]).length
          ∧ (keys ++ [t]).getD pr.1 Cell.null ≠ (keys ++ [t]).getD pr.2 Cell.null)
      ∧ raw.length = (keys ++ [t]).length / 2 := by
  rcases List.mem_iff_get.mp ht with ⟨⟨k, hk⟩, hget⟩
  have hgetD : keys.getD k Cell.null = t := by
    rw [List.getD_eq_getElem keys Cell.null hk]
    exact hget
  set n := keys.length with hn
  have hlen2 : (keys ++ [t]).length = n + 1 := by simp
  by_cases hklast : k = n - 1
  · refine ⟨chunk2 (List.range (n - 3)) ++ [(n - 3, n - 1), (n - 2, n)], ?_, ?_, ?_⟩
    · rw [List.flatMap_append, chunk2_flat (List.range (n - 3)) (by simp; omega)]
      have hrest : ([(n - 3, n - 1), (n - 2, n)].flatMap
          (fun pr : Nat × Nat => [pr.1, pr.2])) = [n - 3, n - 1, n - 2, n] := rfl
      rw [hrest]
      apply List.Nodup.append (List.nodup_range _)
      · refine List.nodup_cons.mpr ⟨?_, List.nodup_cons.mpr ⟨?_,
          List.nodup_cons.mpr ⟨?_, List.nodup_singleton _⟩⟩⟩ <;> simp <;> omega
      · intro x hx hx2
        have hxlt : x < n - 3 := List.mem_range.mp hx
        rcases List.mem_cons.mp hx2 with rfl | hx3
        · omega
        rcases List.mem_cons.mp hx3 with rfl | hx4
        · omega
        rcases List.mem_cons.mp hx4 with rfl | hx5
        · omega
        · rw [List.mem_singleton] at hx5
          omega
    · intro pr hpr
      rcases List.mem_append.mp hpr with h | h
      · have hc := chunk2_range' (n - 3) 0 pr (by rwa [← List.range_eq_range'])
        rcases hc with ⟨h1, _, h2⟩
        have hpr1 : pr.1 < n := by omega
        have hpr2 : pr.2 < n := by omega
        refine ⟨by omega, by omega, ?_⟩
        rw [getD_append_lt keys [t] hpr1, getD_append_lt keys [t] hpr2]
        exact nodup_getD_ne hnd hpr1 hpr2 (by omega)
      · rcases List.mem_cons.mp h with rfl | h2
        · refine ⟨by omega, by omega, ?_⟩
          rw [getD_append_lt keys [t] (show n - 3 < n by omega),
            getD_append_lt keys [t] (show n - 1 < n by omega)]
          exact nodup_getD_ne hnd (by omega) (by omega) (by omega)
        · rw [List.mem_singleton] at h2
          subst h2
          refine ⟨by omega, by omega, ?_⟩
          rw [getD_append_lt keys [t] (show n - 2 < n by omega)]
          rw [show ((n : Nat)) = keys.length from hn, getD_append_self keys t, ← hgetD]
          exact nodup_getD_ne hnd (by omega) hk (by omega)
    · rw [List.length_append, chunk2_length (List.range (n - 3)) (by simp; omega)]
      simp only [List.length_range, List.length_append, List.length_cons, List.length_nil]
      omega
  · refine ⟨chunk2 (List.range (n + 1)), ?_, ?_, ?_⟩
    · rw [chunk2_flat (List.range (n + 1)) (by simp; omega)]
      exact List.nodup_range _
    · intro pr hpr
      have hc := chunk2_range' (n + 1) 0 pr (by rwa [← List.range_eq_range'])
      rcases hc with ⟨h1, _, h2⟩
      by_cases hlastp : pr.2 = n
      · have hpr1 : pr.1 = n - 1 := by omega
        refine ⟨by omega, by omega, ?_⟩
        rw [hpr1, hlastp, getD_append_lt keys [t] (show n - 1 < n by omega)]
        rw [show ((n : Nat)) = keys.length from hn, getD_append_self keys t, ← hgetD]
        exact nodup_getD_ne hnd (by omega) hk (by omega)
      · have hpr1 : pr.1 < n := by omega
        have hpr2 : pr.2 < n := by omega
        refine ⟨by omega, by omega, ?_⟩
        rw [getD_append_lt keys [t] hpr1, getD_append_lt keys [t] hpr2]
        exact nodup_getD_ne hnd hpr1 hpr2 (by omega)
    · rw [chunk2_length (List.range (n + 1)) (by simp; omega)]
      simp only [List.length_range, List.length_append, List.length_cons, List.length_nil]

theorem twiceUsers_sub (g : CGraph) : ∀ t ∈ twiceUsersOf g, t ∈ nodeKeys g := by
  intro t ht
  exact List.mem_of_mem_filter ht

theorem expandedEmployees_odd (pick : Nat → Nat) (g : CGraph)
    (hodd : (nodeKeys g).length % 2 = 1) (htw : twiceUsersOf g ≠ []) :
    ∃ t ∈ twiceUsersOf g, expandedEmployees pick g = nodeKeys g ++ [t] := by
  have hlen : 0 < (twiceUsersOf g).length := List.length_pos.mpr htw
  have hidx : pick (twiceUsersOf g).length % (twiceUsersOf g).length < (twiceUsersOf g).length :=
    Nat.mod_lt _ hlen
  refine ⟨(twiceUsersOf g).getD (pick (twiceUsersOf g).length % (twiceUsersOf g).length)
    Cell.null, getD_mem hidx Cell.null, ?_⟩
  unfold expandedEmployees
  rw [if_pos (by omega), if_pos hlen]

theorem buildCostMatrix_mem_length {es : List Cell} {g : CGraph} {comms : List (Cell × Nat)}
    {row : List ℚ} (hrow : row ∈ buildCostMatrix es g comms) : row.length = es.length := by
  rw [buildCostMatrix] at hrow
  rcases List.mem_map.mp hrow with ⟨i, _, rfl⟩
  simp

/-- When a disjoint candidate system covering every matrix index exists
and the backtracking branch runs, the multiset of identities emitted by
`hungarianMatching` is exactly the participant list. -/
theorem hungarianMatching_exact_perm (es : List Cell) (g : CGraph) (comms : List (Cell × Nat))
    (raw : List (Nat × Nat))
    (hflat : (raw.flatMap (fun pr => [pr.1, pr.2])).Nodup)
    (hshape : ∀ pr ∈ raw, pr.1 < pr.2 ∧ pr.2 < es.length
      ∧ es.getD pr.1 Cell.null ≠ es.getD pr.2 Cell.null)
    (hlenr : raw.length = es.length / 2)
    (heven : es.length % 2 = 0) (hpos : 0 < es.length) (hle : es.length ≤ 12) :
    (flatPairs (hungarianMatching es (some ((buildCostMatrix es g comms).map
      (fun r => some r))))).Perm es := by
  have hrlen : ((buildCostMatrix es g comms).map (fun r => some r)).length = es.length := by
    rw [List.length_map, buildCostMatrix_length]
  have h1 : ¬((((buildCostMatrix es g comms).map (fun r => some r)).length == 0) = true) := by
    rw [beq_iff_eq, hrlen]
    omega
  have h2 : ¬((((buildCostMatrix es g comms).map (fun r => some r)).any
      (fun r => (r.getD []).isEmpty)) = true) := by
    intro hcon
    rcases List.any_eq_true.mp hcon with ⟨r, hr, hbr⟩
    rcases List.mem_map.mp hr with ⟨ri, hri, rfl⟩
    have hril : ri.length = es.length := buildCostMatrix_mem_length hri
    have : ri.isEmpty = true := hbr
    rw [List.isEmpty_iff] at this
    rw [this] at hril
    simp at hril
    omega
  have htpos : 0 < es.length / 2 := by omega
  obtain ⟨m, c, heq, hmlen, hpool, hnd, _⟩ :=
    backtrackTop_finds es ((buildCostMatrix es g comms).map (fun r => some r)) raw
      (es.length / 2) hflat hshape hlenr htpos
  rw [hungarianMatching]
  rw [if_neg h1, if_neg h2, if_neg (show ¬ es.length > 12 by omega)]
  rw [heq]
  show (flatPairs (m.map
    (fun p => (es.getD p.i Cell.null, es.getD p.j Cell.null)))).Perm es
  apply flatPairs_perm
  · intro x hx
    rcases mem_idxList.mp hx with ⟨p, hp, rfl | rfl⟩
    · rcases mem_possiblePairs.mp (hpool p hp) with ⟨ha, hb, _, _⟩
      omega
    · exact (mem_possiblePairs.mp (hpool p hp)).2.1
  · exact hnd
  · rw [idxList_length, hmlen]
    omega

/-- For an odd active population of at most 11 with a twice-flagged
participant, the identities emitted by the engine are exactly the
active identities plus one extra copy of the chosen twice user. -/
theorem generateOptimalPairs_odd_perm (pick : Nat → Nat) (t1 t2 : Table)
    (hodd : (nodeKeys (buildConnectionGraph t1 t2)).length % 2 = 1)
    (h3 : 3 ≤ (nodeKeys (buildConnectionGraph t1 t2)).length)
    (h11 : (nodeKeys (buildConnectionGraph t1 t2)).length ≤ 11)
    (htw : twiceUsersOf (buildConnectionGraph t1 t2) ≠ []) :
    ∃ t ∈ twiceUsersOf (buildConnectionGraph t1 t2),
      (flatPairs (generateOptimalPairs pick t1 t2)).Perm
        (nodeKeys (buildConnectionGraph t1 t2) ++ [t]) := by
  obtain ⟨t, htmem, hes⟩ :=
    expandedEmployees_odd pick (buildConnectionGraph t1 t2) hodd htw
  refine ⟨t, htmem, ?_⟩
  have hknd := nodeKeys_build_nodup t1 t2
  have htk := twiceUsers_sub (buildConnectionGraph t1 t2) t htmem
  obtain ⟨raw, hflat, hshape, hlenr⟩ :=
    exists_raw_system (nodeKeys (buildConnectionGraph t1 t2)) t hknd htk hodd h3
  have hresult : generateOptimalPairs pick t1 t2
      = if (nodeKeys (buildConnectionGraph t1 t2)).length < 2 then []
        else hungarianMatching (expandedEmployees pick (buildConnectionGraph t1 t2))
          (some ((buildCostMatrix (expandedEmployees pick (buildConnectionGraph t1 t2))
            (buildConnectionGraph t1 t2)
            (detectCommunities (buildConnectionGraph t1 t2))).map (fun r => some r))) := rfl
  rw [hresult, if_neg (by omega), hes]
  apply hungarianMatching_exact_perm _ _ _ raw hflat hshape hlenr
  · simp only [List.length_append, List.length_cons, List.length_nil]
    omega
  · simp only [List.length_append, List.length_cons, List.length_nil]
    omega
  · simp only [List.length_append, List.length_cons, List.length_nil]
    omega

/-- C4 (amended): for every roster with unique active identities whose
active population is odd, at least 3, and at most 11, and contains at
least one participant with the may-pair-twice flag, the pair list of
`generateOptimalPairs` covers every active identity at least once; the
one chosen twice user appears exactly twice and every other identity at
most once — so at most one identity appears twice.  (The bound 11 keeps
the expanded list within the exact backtracking branch; claim C4 as
stated is refuted at population 13 by `c4_odd_uncovered_counterexample`.) -/
theorem c4_odd_twice_coverage (pick : Nat → Nat) (t1 t2 : Table)
    (hros : (activeEmailsOf t1).Nodup)
    (hodd : (nodeKeys (buildConnectionGraph t1 t2)).length % 2 = 1)
    (h3 : 3 ≤ (nodeKeys (buildConnectionGraph t1 t2)).length)
    (h11 : (nodeKeys (buildConnectionGraph t1 t2)).length ≤ 11)
    (htw : twiceUsersOf (buildConnectionGraph t1 t2) ≠ []) :
    ∃ t ∈ twiceUsersOf (buildConnectionGraph t1 t2),
      (∀ e ∈ nodeKeys (buildConnectionGraph t1 t2),
        1 ≤ (flatPairs (generateOptimalPairs pick t1 t2)).count e)
      ∧ (flatPairs (generateOptimalPairs pick t1 t2)).count t = 2
      ∧ ∀ e : Cell, e ≠ t → (flatPairs (generateOptimalPairs pick t1 t2)).count e ≤ 1 := by
  obtain ⟨t, htmem, hperm⟩ := generateOptimalPairs_odd_perm pick t1 t2 hodd h3 h11 htw
  have hknd := nodeKeys_build_nodup t1 t2
  have htk := twiceUsers_sub (buildConnectionGraph t1 t2) t htmem
  refine ⟨t, htmem, ?_, ?_, ?_⟩
  · intro e he
    rw [hperm.count_eq, List.count_append]
    have h1 : 0 < (nodeKeys (buildConnectionGraph t1 t2)).count e :=
      List.count_pos_iff.mpr he
    omega
  · rw [hperm.count_eq, List.count_append, List.count_eq_one_of_mem hknd htk,
      List.count_singleton]
    simp
  · intro e hne
    rw [hperm.count_eq, List.count_append]
    have h1 : (nodeKeys (buildConnectionGraph t1 t2)).count e ≤ 1 :=
      List.nodup_iff_count_le_one.mp hknd e
    have h2 : List.count e [t] = 0 := by
      rw [List.count_singleton]
      simp [beq_iff_eq]
      intro hcon
      exact absurd hcon.symm hne
    omega

/-- An odd population of 13: twice user `t` has already met all twelve
`f` participants.  Expansion yields 14 rows, so the greedy branch runs. -/
def c4exT1 : Table :=
  some [Cell.str "email", Cell.str "active", Cell.str "twice"] ::
  some [Cell.str "t", Cell.bool true, Cell.str "twice"] ::
  ((List.range 12).map (fun k =>
    some [Cell.str ("f" ++ toString (k + 1)), Cell.bool true, Cell.str ""]))

def c4exT2 : Table :=
  some [Cell.str "e1", Cell.str "e2", Cell.str "date", Cell.str "text"] ::
  ((List.range 12).map (fun k =>
    some [Cell.str "t", Cell.str ("f" ++ toString (k + 1)),
      Cell.str "2024-01-15", Cell.str "R"]))

set_option maxRecDepth 10000 in
/-- C4 counterexample: on `c4exT1`/`c4exT2` the population is odd (13)
and the may-pair-twice user `t` exists, yet the returned pair list does
not cover `t` at all — the greedy branch (population 14 after
expansion) pairs the twelve `f` participants among themselves and
strands both copies of `t`, refuting "covers every active identity at
least once". -/
theorem c4_odd_uncovered_counterexample :
    (nodeKeys (buildConnectionGraph c4exT1 c4exT2)).length % 2 = 1
    ∧ twiceUsersOf (buildConnectionGraph c4exT1 c4exT2) ≠ []
    ∧ Cell.str "t" ∈ nodeKeys (buildConnectionGraph c4exT1 c4exT2)
    ∧ (flatPairs (generateOptimalPairs (fun _ => 0) c4exT1 c4exT2)).count
        (Cell.str "t") = 0 :=
  ⟨by with_unfolding_all rfl,
   of_decide_eq_true (by with_unfolding_all rfl),
   of_decide_eq_true (by with_unfolding_all rfl),
   by with_unfolding_all rfl⟩

set_option maxRecDepth 4000 in
/-- Witness for the amended C4 at a concrete population of 3 with
twice user `a` and no history: all hypotheses hold and the emitted
identities cover `a`, `b`, `c` with only the chosen twice user twice. -/
theorem c4_odd_twice_coverage_witness :
    ((activeEmailsOf
        [some [Cell.str "email", Cell.str "active", Cell.str "twice"],
          some [Cell.str "a", Cell.bool true, Cell.str "twice"],
          some [Cell.str "b", Cell.bool true, Cell.str ""],
          some [Cell.str "c", Cell.bool true, Cell.str ""]]).Nodup
      ∧ (nodeKeys (buildConnectionGraph
          [some [Cell.str "email", Cell.str "active", Cell.str "twice"],
            some [Cell.str "a", Cell.bool true, Cell.str "twice"],
            some [Cell.str "b", Cell.bool true, Cell.str ""],
            some [Cell.str "c", Cell.bool true, Cell.str ""]]
          [some [Cell.str "e1", Cell.str "e2"]])).length % 2 = 1
      ∧ 3 ≤ (nodeKeys (buildConnectionGraph
          [some [Cell.str "email", Cell.str "active", Cell.str "twice"],
            some [Cell.str "a", Cell.bool true, Cell.str "twice"],
            some [Cell.str "b", Cell.bool true, Cell.str ""],
            some [Cell.str "c", Cell.bool true, Cell.str ""]]
          [some [Cell.str "e1", Cell.str "e2"]])).length
      ∧ (nodeKeys (buildConnectionGraph
          [some [Cell.str "email", Cell.str "active", Cell.str "twice"],
            some [Cell.str "a", Cell.bool true, Cell.str "twice"],
            some [Cell.str "b", Cell.bool true, Cell.str ""],
            some [Cell.str "c", Cell.bool true, Cell.str ""]]
          [some [Cell.str "e1", Cell.str "e2"]])).length ≤ 11
      ∧ twiceUsersOf (buildConnectionGraph
          [some [Cell.str "email", Cell.str "active", Cell.str "twice"],
            some [Cell.str "a", Cell.bool true, Cell.str "twice"],
            some [Cell.str "b", Cell.bool true, Cell.str ""],
            some [Cell.str "c", Cell.bool true, Cell.str ""]]
          [some [Cell.str "e1", Cell.str "e2"]]) ≠ [])
    ∧ ∃ t ∈ twiceUsersOf (buildConnectionGraph
          [some [Cell.str "email", Cell.str "active", Cell.str "twice"],
            some [Cell.str "a", Cell.bool true, Cell.str "twice"],
            some [Cell.str "b", Cell.bool true, Cell.str ""],
            some [Cell.str "c", Cell.bool true, Cell.str ""]]
          [some [Cell.str "e1", Cell.str "e2"]]),
        (∀ e ∈ nodeKeys (buildConnectionGraph
            [some [Cell.str "email", Cell.str "active", Cell.str "twice"],
              some [Cell.str "a", Cell.bool true, Cell.str "twice"],
              some [Cell.str "b", Cell.bool true, Cell.str ""],
              some [Cell.str "c", Cell.bool true, Cell.str ""]]
            [some [Cell.str "e1", Cell.str "e2"]]),
          1 ≤ (flatPairs (generateOptimalPairs (fun _ => 0)
            [some [Cell.str "email", Cell.str "active", Cell.str "twice"],
              some [Cell.str "a", Cell.bool true, Cell.str "twice"],
              some [Cell.str "b", Cell.bool true, Cell.str ""],
              some [Cell.str "c", Cell.bool true, Cell.str ""]]
            [some [Cell.str "e1", Cell.str "e2"]])).count e)
        ∧ (flatPairs (generateOptimalPairs (fun _ => 0)
            [some [Cell.str "email", Cell.str "active", Cell.str "twice"],
              some [Cell.str "a", Cell.bool true, Cell.str "twice"],
              some [Cell.str "b", Cell.bool true, Cell.str ""],
              some [Cell.str "c", Cell.bool true, Cell.str ""]]
            [some [Cell.str "e1", Cell.str "e2"]])).count t = 2
        ∧ ∀ e : Cell, e ≠ t →
            (flatPairs (generateOptimalPairs (fun _ => 0)
              [some [Cell.str "email", Cell.str "active", Cell.str "twice"],
                some [Cell.str "a", Cell.bool true, Cell.str "twice"],
                some [Cell.str "b", Cell.bool true, Cell.str ""],
                some [Cell.str "c", Cell.bool true, Cell.str ""]]
              [some [Cell.str "e1", Cell.str "e2"]])).count e ≤ 1 :=
  ⟨⟨of_decide_eq_true (by with_unfolding_all rfl),
    by with_unfolding_all rfl,
    of_decide_eq_true (by with_unfolding_all rfl),
    of_decide_eq_true (by with_unfolding_all rfl),
    of_decide_eq_true (by with_unfolding_all rfl)⟩,
   c4_odd_twice_coverage (fun _ => 0) _ _
     (of_decide_eq_true (by with_unfolding_all rfl))
     (by with_unfolding_all rfl)
     (of_decide_eq_true (by with_unfolding_all rfl))
     (of_decide_eq_true (by with_unfolding_all rfl))
     (of_decide_eq_true (by with_unfolding_all rfl))⟩

theorem mval_map_some (mtx : List (List ℚ)) (i j : Nat) :
    mval (mtx.map (fun r => some r)) i j = costEntry mtx i j := by
  rw [mval, costEntry]
  by_cases hi : i < mtx.length
  · rw [List.getD_eq_getElem (mtx.map (fun r => some r)) none (by simpa using hi),
      List.getElem_map, List.getD_eq_getElem mtx [] hi]
    rfl
  · rw [List.getD_eq_default (mtx.map (fun r => some r)) none (by simpa using Nat.le_of_not_lt hi),
      List.getD_eq_default mtx [] (Nat.le_of_not_lt hi)]
    rfl

theorem costEntry_ge (es : List Cell) (g : CGraph) (comms : List (Cell × Nat))
    {i j : Nat} (hi : i < es.length) (hj : j < es.length) :
    (-44 : ℚ) ≤ costEntry (buildCostMatrix es g comms) i j := by
  rw [buildCostMatrix_entry es g comms hi hj]
  split
  · norm_num [ALGORITHM_CONFIG]
  split
  · norm_num [ALGORITHM_CONFIG]
  · have := composite_le_44 (es.getD i Cell.null) (es.getD j Cell.null) g comms
    linarith

theorem costEntry_of_edge (es : List Cell) (g : CGraph) (comms : List (Cell × Nat))
    {i j : Nat} (hi : i < es.length) (hj : j < es.length)
    (hedge : hasEdge g (es.getD i Cell.null) (es.getD j Cell.null) = true) :
    costEntry (buildCostMatrix es g comms) i j = ALGORITHM_CONFIG.HARD_CONSTRAINT_PENALTY := by
  rw [buildCostMatrix_entry es g comms hi hj, hedge]
  split
  · rfl
  · rfl

theorem costEntry_nonpos_of_no_edge (es : List Cell) (g : CGraph) (comms : List (Cell × Nat))
    {i j : Nat} (hi : i < es.length) (hj : j < es.length) (hij : i ≠ j)
    (hne : es.getD i Cell.null ≠ es.getD j Cell.null)
    (hedge : hasEdge g (es.getD i Cell.null) (es.getD j Cell.null) = false) :
    costEntry (buildCostMatrix es g comms) i j ≤ 0 := by
  rw [buildCostMatrix_entry es g comms hi hj]
  rw [if_neg (show ¬ _ by
    intro hcon
    rw [Bool.or_eq_true] at hcon
    rcases hcon with h | h
    · exact hij (beq_iff_eq.mp h)
    · exact hne (beq_iff_eq.mp h))]
  rw [if_neg (by rw [hedge]; exact Bool.false_ne_true)]
  have := composite_nonneg (es.getD i Cell.null) (es.getD j Cell.null) g comms
  linarith

theorem sumCosts_lower (l : List IPair) (hlb : ∀ p ∈ l, (-44 : ℚ) ≤ p.cost) :
    -(44 * (l.length : ℚ)) ≤ sumCosts l := by
  induction l with
  | nil => simp [sumCosts]
  | cons p rest ih =>
    have h1 : sumCosts (p :: rest) = p.cost + sumCosts rest := by
      rw [sumCosts, sumCosts, List.map_cons, List.sum_cons]
    rw [h1, List.length_cons]
    have h2 := ih (fun q hq => hlb q (List.mem_cons_of_mem p hq))
    have h3 := hlb p (List.mem_cons_self p rest)
    push_cast
    linarith

theorem mem_cost_le (m : List IPair) (p : IPair) (hp : p ∈ m)
    (hlb : ∀ q ∈ m, (-44 : ℚ) ≤ q.cost)
    (hsum : sumCosts m ≤ 0) (hlen : m.length ≤ 6) :
    p.cost ≤ 220 := by
  have hperm : m.Perm (p :: m.erase p) := List.perm_cons_erase hp
  have hsumeq : sumCosts m = p.cost + sumCosts (m.erase p) := by
    rw [sumCosts, (hperm.map IPair.cost).sum_eq]
    rw [List.map_cons, List.sum_cons]
    rfl
  have hrest : -(44 * ((m.erase p).length : ℚ)) ≤ sumCosts (m.erase p) :=
    sumCosts_lower (m.erase p) (fun q hq => hlb q (hperm.mem_iff.mpr (List.mem_cons_of_mem p hq)))
  have hel : (m.erase p).length ≤ 5 := by
    have := List.length_erase_of_mem hp
    omega
  have hcast : ((m.erase p).length : ℚ) ≤ 5 := by
    exact_mod_cast hel
  rw [hsumeq] at hsum
  nlinarith

/-- When a repeat-free disjoint candidate system of full size exists
and the backtracking branch runs, every pair the solver returns is a
never-met pair: any already-met pair would put the hard-constraint
penalty into a total the repeat-free completion keeps nonpositive. -/
theorem hungarianMatching_exact_no_repeat (es : List Cell) (g : CGraph)
    (comms : List (Cell × Nat)) (raw : List (Nat × Nat))
    (hflat : (raw.flatMap (fun pr => [pr.1, pr.2])).Nodup)
    (hshape : ∀ pr ∈ raw, pr.1 < pr.2 ∧ pr.2 < es.length
      ∧ es.getD pr.1 Cell.null ≠ es.getD pr.2 Cell.null
      ∧ hasEdge g (es.getD pr.1 Cell.null) (es.getD pr.2 Cell.null) = false)
    (hlenr : raw.length = es.length / 2)
    (hpop : 2 ≤ es.length) (hle : es.length ≤ 12) :
    ∀ pr ∈ hungarianMatching es (some ((buildCostMatrix es g comms).map
      (fun r => some r))), hasEdge g pr.1 pr.2 = false := by
  have hrlen : ((buildCostMatrix es g comms).map (fun r => some r)).length = es.length := by
    rw [List.length_map, buildCostMatrix_length]
  have hck1 : ¬((((buildCostMatrix es g comms).map (fun r => some r)).length == 0) = true) := by
    rw [beq_iff_eq, hrlen]
    omega
  have hck2 : ¬((((buildCostMatrix es g comms).map (fun r => some r)).any
      (fun r => (r.getD []).isEmpty)) = true) := by
    intro hcon
    rcases List.any_eq_true.mp hcon with ⟨r, hr, hbr⟩
    rcases List.mem_map.mp hr with ⟨ri, hri, rfl⟩
    have hril : ri.length = es.length := buildCostMatrix_mem_length hri
    have hre : ri.isEmpty = true := hbr
    rw [List.isEmpty_iff] at hre
    rw [hre] at hril
    simp at hril
    omega
  have hcosts : ∀ pr ∈ raw,
      mval ((buildCostMatrix es g comms).map (fun r => some r)) pr.1 pr.2 ≤ 0 := by
    intro pr hpr
    rcases hshape pr hpr with ⟨ha, hb, hc, hd⟩
    rw [mval_map_some]
    exact costEntry_nonpos_of_no_edge es g comms (by omega) hb (by omega) hc hd
  obtain ⟨m, c, heq, hmlen, hpool, hnd, hceq, hc0⟩ :=
    backtrackTop_quality es ((buildCostMatrix es g comms).map (fun r => some r)) raw
      (es.length / 2) hflat
      (fun pr hpr => ⟨(hshape pr hpr).1, (hshape pr hpr).2.1, (hshape pr hpr).2.2.1⟩)
      hcosts hlenr (by omega)
  rw [hungarianMatching]
  rw [if_neg hck1, if_neg hck2, if_neg (show ¬ es.length > 12 by omega)]
  rw [heq]
  show ∀ pr ∈ m.map (fun p => (es.getD p.i Cell.null, es.getD p.j Cell.null)),
    hasEdge g pr.1 pr.2 = false
  intro pr hpr
  rcases List.mem_map.mp hpr with ⟨p, hp, rfl⟩
  rcases mem_possiblePairs.mp (hpool p hp) with ⟨hij, hjlt, hne, hcost⟩
  have hlb : ∀ q ∈ m, (-44 : ℚ) ≤ q.cost := by
    intro q hq
    rcases mem_possiblePairs.mp (hpool q hq) with ⟨hij2, hjlt2, _, hcost2⟩
    rw [hcost2, mval_map_some]
    exact costEntry_ge es g comms (by omega) hjlt2
  have hsum : sumCosts m ≤ 0 := by
    rw [← hceq]
    exact hc0
  have hmlen6 : m.length ≤ 6 := by
    rw [hmlen]
    omega
  have hple : p.cost ≤ 220 := mem_cost_le m p hp hlb hsum hmlen6
  by_contra hcon
  rw [Bool.not_eq_false] at hcon
  have hpen : p.cost = ALGORITHM_CONFIG.HARD_CONSTRAINT_PENALTY := by
    rw [hcost, mval_map_some]
    exact costEntry_of_edge es g comms (by omega) hjlt hcon
  rw [hpen] at hple
  norm_num [ALGORITHM_CONFIG] at hple

theorem expandedEmployees_len_ge (pick : Nat → Nat) (g : CGraph) :
    (nodeKeys g).length ≤ (expandedEmployees pick g).length := by
  unfold expandedEmployees
  dsimp only
  split
  · split
    · simp
    · exact le_refl _
  · exact le_refl _

/-- C1 (amended to the exact branch, i.e. at most 12 participants after
the odd-population expansion): whenever a repeat-free disjoint matching
of `floor(n/2)` candidate pairs exists over the solved participant
list, every pair returned by `generateOptimalPairs` is a never-met
pair.  (Claim C1 as stated over all populations is refuted at
population 14 by `c1_repeat_counterexample`: the greedy branch commits
to a repeat although a repeat-free perfect matching exists.) -/
theorem c1_no_repeats_when_possible (pick : Nat → Nat) (t1 t2 : Table)
    (hpop : 2 ≤ (nodeKeys (buildConnectionGraph t1 t2)).length)
    (hle : (expandedEmployees pick (buildConnectionGraph t1 t2)).length ≤ 12)
    (raw : List (Nat × Nat))
    (hflat : (raw.flatMap (fun pr => [pr.1, pr.2])).Nodup)
    (hshape : ∀ pr ∈ raw, pr.1 < pr.2
      ∧ pr.2 < (expandedEmployees pick (buildConnectionGraph t1 t2)).length
      ∧ (expandedEmployees pick (buildConnectionGraph t1 t2)).getD pr.1 Cell.null
          ≠ (expandedEmployees pick (buildConnectionGraph t1 t2)).getD pr.2 Cell.null
      ∧ hasEdge (buildConnectionGraph t1 t2)
          ((expandedEmployees pick (buildConnectionGraph t1 t2)).getD pr.1 Cell.null)
          ((expandedEmployees pick (buildConnectionGraph t1 t2)).getD pr.2 Cell.null) = false)
    (hlenr : raw.length = (expandedEmployees pick (buildConnectionGraph t1 t2)).length / 2) :
    ∀ pr ∈ generateOptimalPairs pick t1 t2,
      hasEdge (buildConnectionGraph t1 t2) pr.1 pr.2 = false := by
  have hresult : generateOptimalPairs pick t1 t2
      = if (nodeKeys (buildConnectionGraph t1 t2)).length < 2 then []
        else hungarianMatching (expandedEmployees pick (buildConnectionGraph t1 t2))
          (some ((buildCostMatrix (expandedEmployees pick (buildConnectionGraph t1 t2))
            (buildConnectionGraph t1 t2)
            (detectCommunities (buildConnectionGraph t1 t2))).map (fun r => some r))) := rfl
  rw [hresult, if_neg (by omega)]
  have hpop2 : 2 ≤ (expandedEmployees pick (buildConnectionGraph t1 t2)).length :=
    le_trans hpop (expandedEmployees_len_ge pick (buildConnectionGraph t1 t2))
  exact hungarianMatching_exact_no_repeat
    (expandedEmployees pick (buildConnectionGraph t1 t2)) (buildConnectionGraph t1 t2)
    (detectCommunities (buildConnectionGraph t1 t2)) raw hflat hshape hlenr hpop2 hle

/-- An even population of 14 (`a`, `b`, `f1` … `f12`): `a` has met all
twelve `f` participants, `b` has met `f1` … `f10`.  A repeat-free
perfect matching exists (`a`-`b`, `f1`-`f2`, …, `f11`-`f12`), but the
greedy branch runs (14 > 12) and commits to a repeat. -/
def c1exT1 : Table :=
  some [Cell.str "email", Cell.str "active", Cell.str "twice"] ::
  some [Cell.str "a", Cell.bool true, Cell.str ""] ::
  some [Cell.str "b", Cell.bool true, Cell.str ""] ::
  ((List.range 12).map (fun k =>
    some [Cell.str ("f" ++ toString (k + 1)), Cell.bool true, Cell.str ""]))

def c1exT2 : Table :=
  some [Cell.str "e1", Cell.str "e2", Cell.str "date", Cell.str "text"] ::
  (((List.range 12).map (fun k =>
    some [Cell.str "a", Cell.str ("f" ++ toString (k + 1)),
      Cell.str "2024-01-15", Cell.str "R"]))
  ++ ((List.range 10).map (fun k =>
    some [Cell.str "b", Cell.str ("f" ++ toString (k + 1)),
      Cell.str "2024-01-15", Cell.str "R"])))

def c1exMatching : List (Cell × Cell) :=
  [(Cell.str "a", Cell.str "b"),
   (Cell.str "f1", Cell.str "f2"), (Cell.str "f3", Cell.str "f4"),
   (Cell.str "f5", Cell.str "f6"), (Cell.str "f7", Cell.str "f8"),
   (Cell.str "f9", Cell.str "f10"), (Cell.str "f11", Cell.str "f12")]

set_option maxRecDepth 10000 in
/-- C1 counterexample: on `c1exT1`/`c1exT2` the repeat-free perfect
matching `c1exMatching` over the 14 participants exists (disjoint,
full size, every pair never met), yet the returned pair list contains
a pair that already shares an edge — refuting "whenever at least one
repeat-free matching exists, every returned pair is a never-met
pair". -/
theorem c1_repeat_counterexample :
    (nodeKeys (buildConnectionGraph c1exT1 c1exT2)).length = 14
    ∧ (flatPairs c1exMatching).Nodup
    ∧ (∀ pr ∈ c1exMatching,
        pr.1 ∈ nodeKeys (buildConnectionGraph c1exT1 c1exT2)
        ∧ pr.2 ∈ nodeKeys (buildConnectionGraph c1exT1 c1exT2)
        ∧ pr.1 ≠ pr.2
        ∧ hasEdge (buildConnectionGraph c1exT1 c1exT2) pr.1 pr.2 = false)
    ∧ c1exMatching.length = (nodeKeys (buildConnectionGraph c1exT1 c1exT2)).length / 2
    ∧ ((generateOptimalPairs (fun _ => 0) c1exT1 c1exT2).any
        (fun pr => hasEdge (buildConnectionGraph c1exT1 c1exT2) pr.1 pr.2)) = true :=
  ⟨by with_unfolding_all rfl,
   of_decide_eq_true (by with_unfolding_all rfl),
   of_decide_eq_true (by with_unfolding_all rfl),
   by with_unfolding_all rfl,
   by with_unfolding_all rfl⟩

/-- A fresh population of 4 with no history at all: the disjoint
candidate system pairing indices (0,1) and (2,3) is repeat-free. -/
def c1wT1 : Table :=
  [some [Cell.str "email", Cell.str "active", Cell.str "twice"],
   some [Cell.str "a", Cell.bool true, Cell.str ""],
   some [Cell.str "b", Cell.bool true, Cell.str ""],
   some [Cell.str "c", Cell.bool true, Cell.str ""],
   some [Cell.str "d", Cell.bool true, Cell.str ""]]

def c1wT2 : Table := [some [Cell.str "e1", Cell.str "e2", Cell.str "date", Cell.str "text"]]

/-- Witness for the amended C1 at a concrete population of 4 with no
history: all hypotheses hold for the index system (0,1), (2,3) and no
returned pair shares an edge. -/
theorem c1_no_repeats_when_possible_witness :
    (2 ≤ (nodeKeys (buildConnectionGraph c1wT1 c1wT2)).length
      ∧ (expandedEmployees (fun _ => 0) (buildConnectionGraph c1wT1 c1wT2)).length ≤ 12
      ∧ (([((0 : Nat), (1 : Nat)), ((2 : Nat), (3 : Nat))].flatMap
          (fun pr => [pr.1, pr.2])).Nodup)
      ∧ (∀ pr ∈ [((0 : Nat), (1 : Nat)), ((2 : Nat), (3 : Nat))], pr.1 < pr.2
          ∧ pr.2 < (expandedEmployees (fun _ => 0) (buildConnectionGraph c1wT1 c1wT2)).length
          ∧ (expandedEmployees (fun _ => 0) (buildConnectionGraph c1wT1 c1wT2)).getD pr.1
              Cell.null
            ≠ (expandedEmployees (fun _ => 0) (buildConnectionGraph c1wT1 c1wT2)).getD pr.2
              Cell.null
          ∧ hasEdge (buildConnectionGraph c1wT1 c1wT2)
              ((expandedEmployees (fun _ => 0) (buildConnectionGraph c1wT1 c1wT2)).getD pr.1
                Cell.null)
              ((expandedEmployees (fun _ => 0) (buildConnectionGraph c1wT1 c1wT2)).getD pr.2
                Cell.null) = false)
      ∧ [((0 : Nat), (1 : Nat)), ((2 : Nat), (3 : Nat))].length
          = (expandedEmployees (fun _ => 0) (buildConnectionGraph c1wT1 c1wT2)).length / 2)
    ∧ ∀ pr ∈ generateOptimalPairs (fun _ => 0) c1wT1 c1wT2,
        hasEdge (buildConnectionGraph c1wT1 c1wT2) pr.1 pr.2 = false :=
  ⟨⟨of_decide_eq_true (by with_unfolding_all rfl),
    of_decide_eq_true (by with_unfolding_all rfl),
    of_decide_eq_true (by with_unfolding_all rfl),
    of_decide_eq_true (by with_unfolding_all rfl),
    by with_unfolding_all rfl⟩,
   c1_no_repeats_when_possible (fun _ => 0) c1wT1 c1wT2
     (of_decide_eq_true (by with_unfolding_all rfl))
     (of_decide_eq_true (by with_unfolding_all rfl))
     [((0 : Nat), (1 : Nat)), ((2 : Nat), (3 : Nat))]
     (of_decide_eq_true (by with_unfolding_all rfl))
     (of_decide_eq_true (by with_unfolding_all rfl))
     (by with_unfolding_all rfl)⟩
